import Mathlib

/-!
# zipmerge: the command-line driver (`src/main.go`)

A shallow embedding of `main` of `rsc/zipmerge`.  `main` is pure orchestration:
it prepares a destination (a fresh `-o` file, or the first archive opened
read-write and positioned at its append offset), copies every entry of every
input archive into the writer, and closes the writer and the file.

The package `rsc.io/zipmerge/internal/zip` and the Go runtime (`os`, `log`)
are not part of `src/`.  Every call that `main` makes into them is therefore
a field of `Env`: the outcome of the call (error or value, and for the writer
the bytes that reached the stream).  Each call site of `main` is reached at
most once per loop position, so an `Env` indexed by loop position expresses
every possible pattern of outcomes.  `main` produces the sequence of calls it
made (`Event`) and the exit code; `step` gives the effect of each call on the
files, the open handles and the cursor of the destination.
-/

namespace Zipmerge

/-- One byte of a file. -/
abbrev Byte := Nat

/-- The text of a Go `error`. -/
abbrev Err := String

/-- Modelled from the spec: `zip.File` is declared in `internal/zip`, which is
not under `src/`.  `main` reads only `Name` and passes the value to `w.Copy`;
the other fields are the entry attributes of spec section 3. -/
structure File where
  Name : String
  Method : Nat
  CRC32 : Nat
  CompressedSize : Nat
  UncompressedSize : Nat
deriving DecidableEq, Repr

/-- Modelled from the spec: `zip.Reader` is declared in `internal/zip`.  `main`
uses `r.AppendOffset()` and `r.Append`; `Files` is the parsed directory
(`rc.File` for a `ReadCloser`). -/
structure Reader where
  Files : List File
  appendOffset : Nat
deriving DecidableEq, Repr

/-- The outcome of every call `main` makes outside `main.go`. -/
structure Env where
  /-- contents of each path before the run -/
  files : String → List Byte
  /-- Call `os.Create(*outputFile)`, line 51: the error, if any -/
  create : String → Option Err
  /-- Call `os.OpenFile(args[0], os.O_RDWR, 0)`, line 58 -/
  openFile : String → Option Err
  /-- Call `f.Seek(0, 2)`, line 62: the error, if any (the value is the file length) -/
  seekEnd : Option Err
  /-- Call `zip.NewReader(f, size)`, line 66 -/
  newReader : Nat → Except Err Reader
  /-- Call `f.Seek(r.AppendOffset(), 0)`, line 70 -/
  seekSet : Nat → Option Err
  /-- Call `zip.OpenReader(name)`, line 78, at loop position `i`: `rc.File` or the error -/
  openReader : Nat → String → Except Err (List File)
  /-- Call `w.Copy(file)`, line 84, for entry `j` of input `i`: the error, if any, and
  the bytes the writer put on the stream during the call -/
  copy : Nat → Nat → File → Option Err × List Byte
  /-- Call `w.Close()`, line 90: the error, if any, and the bytes written -/
  wClose : Option Err × List Byte
  /-- Call `f.Close()`, line 93 -/
  fClose : Option Err

/-- A call made by `main`, with its outcome. -/
inductive Event where
  /-- Call `usage()`, line 43 -/
  | usage
  /-- Call `os.Create(path)`, line 51 -/
  | create (path : String) (err : Option Err)
  /-- Call `zip.NewWriter(f)`, line 55 -/
  | newWriter
  /-- Call `os.OpenFile(path, os.O_RDWR, 0)`, line 58 -/
  | openFile (path : String) (err : Option Err)
  /-- Call `f.Seek(0, 2)`, line 62, returning `size` -/
  | seekEnd (size : Nat) (err : Option Err)
  /-- Call `zip.NewReader(f, size)`, line 66 -/
  | newReader (size : Nat) (err : Option Err)
  /-- Call `r.AppendOffset()`, line 70 -/
  | appendOffset (off : Nat)
  /-- Call `f.Seek(off, 0)`, line 70 -/
  | seekSet (off : Nat) (err : Option Err)
  /-- Call `r.Append(f)`, line 73 -/
  | append (r : Reader)
  /-- Call `zip.OpenReader(name)`, line 78 -/
  | openReader (name : String) (err : Option Err)
  /-- Call `log.Print(err)`, line 80 -/
  | logPrint (err : Err)
  /-- Call `w.Copy(file)`, line 84, while reading archive `name` -/
  | copy (name : String) (file : File) (err : Option Err) (written : List Byte)
  /-- Call `log.Printf("copying from %s (%s): %v", name, entry, err)`, line 85 -/
  | logPrintf (name : String) (entry : String) (err : Err)
  /-- Call `w.Close()`, line 90 -/
  | wClose (err : Option Err) (written : List Byte)
  /-- Call `f.Close()`, line 93, on the handle opened on `path` -/
  | fClose (path : String) (err : Option Err)
  /-- Call `log.Fatal(...)`: prints and exits with status 1 -/
  | fatal (msg : String)
deriving DecidableEq, Repr

/-- What a run of `main` did and how the process ended. -/
structure Outcome where
  trace : List Event
  exit : Nat
deriving DecidableEq, Repr

/-- Lines 83-87: the inner loop over `rc.File` of the archive `name` at loop
position `i`; `j` is the index of the next entry. -/
def copyEntries (env : Env) (i : Nat) (name : String) : Nat → List File → List Event
  | _, [] => []
  | j, file :: rest =>
    (match (env.copy i j file).1 with
     | none => [Event.copy name file none (env.copy i j file).2]
     | some e => [Event.copy name file (some e) (env.copy i j file).2,
                  Event.logPrintf name file.Name e])
    ++ copyEntries env i name (j + 1) rest

/-- Lines 77-88: the loop over the input archive names; `i` is the position of
the next name. -/
def mergeLoop (env : Env) : Nat → List String → List Event
  | _, [] => []
  | i, name :: rest =>
    (match env.openReader i name with
     | .error e => [Event.openReader name (some e), Event.logPrint e]
     | .ok files => Event.openReader name none :: copyEntries env i name 0 files)
    ++ mergeLoop env (i + 1) rest

/-- Lines 90-95: close the writer, then the file; `log.Fatal` on either error.
`log.Fatal` formats like `fmt.Print`, so the text is the literal first
argument followed by the error. -/
def finish (env : Env) (path : String) : Outcome :=
  match env.wClose.1 with
  | some e =>
    ⟨[Event.wClose (some e) env.wClose.2, Event.fatal ("finishing zip file: %v" ++ e)], 1⟩
  | none =>
    match env.fClose with
    | some e =>
      ⟨[Event.wClose none env.wClose.2, Event.fClose path (some e),
        Event.fatal ("finishing zip file: %v" ++ e)], 1⟩
    | none => ⟨[Event.wClose none env.wClose.2, Event.fClose path none], 0⟩

/-- Lines 77-95 after the destination `path` is ready: the merge loop over
`inputs`, then `finish`. -/
def mergeAndFinish (env : Env) (path : String) (inputs : List String)
    (done : List Event) : Outcome :=
  ⟨done ++ mergeLoop env 0 inputs ++ (finish env path).trace, (finish env path).exit⟩

/-- The function `main` of `main.go`, lines 35-96, after `flag.Parse`:
`outputFile` is the value of `-o` (empty when absent) and `args` the
positional arguments. -/
def main (env : Env) (outputFile : String) (args : List String) : Outcome :=
  match args with
  | [] => ⟨[Event.usage], 2⟩
  | a0 :: rest =>
    if outputFile ≠ "" then
      match env.create outputFile with
      | some e => ⟨[Event.create outputFile (some e), Event.fatal e], 1⟩
      | none =>
        mergeAndFinish env outputFile (a0 :: rest)
          [Event.create outputFile none, Event.newWriter]
    else
      match env.openFile a0 with
      | some e => ⟨[Event.openFile a0 (some e), Event.fatal e], 1⟩
      | none =>
        match env.seekEnd with
        | some e =>
          ⟨[Event.openFile a0 none, Event.seekEnd 0 (some e), Event.fatal e], 1⟩
        | none =>
          match env.newReader (env.files a0).length with
          | .error e =>
            ⟨[Event.openFile a0 none, Event.seekEnd (env.files a0).length none,
              Event.newReader (env.files a0).length (some e), Event.fatal e], 1⟩
          | .ok r =>
            match env.seekSet r.appendOffset with
            | some e =>
              ⟨[Event.openFile a0 none, Event.seekEnd (env.files a0).length none,
                Event.newReader (env.files a0).length none,
                Event.appendOffset r.appendOffset,
                Event.seekSet r.appendOffset (some e), Event.fatal e], 1⟩
            | none =>
              mergeAndFinish env a0 rest
                [Event.openFile a0 none, Event.seekEnd (env.files a0).length none,
                 Event.newReader (env.files a0).length none,
                 Event.appendOffset r.appendOffset,
                 Event.seekSet r.appendOffset none, Event.append r]

/-! ## The effect of the calls on files, handles and the cursor -/

/-- The files, the open handles of the process, and the destination handle
`f` with its cursor. -/
structure World where
  /-- contents of each path -/
  fs : String → List Byte
  /-- the path behind every handle the process holds open -/
  handles : List String
  /-- the path behind `f`, once it is open -/
  dest : Option String
  /-- the cursor of `f` -/
  pos : Nat
  /-- the directory held by the writer `w` -/
  dir : List File

/-- The world before `main` runs. -/
def World.init (env : Env) : World :=
  ⟨env.files, [], none, 0, []⟩

/-- The file `fs` with the contents of `path` replaced. -/
def setFile (fs : String → List Byte) (path : String) (bytes : List Byte) :
    String → List Byte :=
  fun q => if q = path then bytes else fs q

/-- A `write` of `bs` on a file holding `old`, with the cursor at `pos`: the
bytes land at `pos`, a gap past the old end reads as zeros, the old bytes
beyond the written range stay, and nothing is cut off.  Writing no byte
changes nothing. -/
def writeAt (old : List Byte) (pos : Nat) (bs : List Byte) : List Byte :=
  match bs with
  | [] => old
  | b :: rest =>
    old.take pos ++ List.replicate (pos - old.length) 0 ++ (b :: rest)
      ++ old.drop (pos + (b :: rest).length)

/-- Modelled from the spec: the writer of `internal/zip` (not under `src/`)
puts its bytes on the stream it was given at the stream's cursor and advances
it (spec 4.4: "writes ... at the current cursor, advances the cursor"; the
positioning or truncation of the stream is the caller's). -/
def World.write (w : World) (bs : List Byte) : World :=
  match w.dest with
  | none => w
  | some p => { w with fs := setFile w.fs p (writeAt (w.fs p) w.pos bs),
                       pos := w.pos + bs.length }

/-- The effect of one call.  `os.Create` truncates the path and opens it;
`os.OpenFile(_, O_RDWR, 0)` opens it as it is; `Seek` moves the cursor;
`zip.OpenReader` leaves a handle open on success (`main` never calls
`rc.Close`); `f.Close` releases the handle of `f`.  The directory of the
writer is modelled from the spec (4.4): empty after `NewWriter`, the reader's
entries after `Append`, one more entry after each `Copy` that returns nil. -/
def step (w : World) : Event → World
  | .create path none =>
    { w with fs := setFile w.fs path [], handles := path :: w.handles,
             dest := some path, pos := 0 }
  | .openFile path none =>
    { w with handles := path :: w.handles, dest := some path, pos := 0 }
  | .seekEnd size none => { w with pos := size }
  | .seekSet off none => { w with pos := off }
  | .newWriter => { w with dir := [] }
  | .append r => { w with dir := r.Files }
  | .openReader name none => { w with handles := name :: w.handles }
  | .copy _ file none written => { w.write written with dir := w.dir ++ [file] }
  | .copy _ _ (some _) written => w.write written
  | .wClose _ written => w.write written
  | .fClose path _ => { w with handles := w.handles.erase path }
  | _ => w

/-- The world after the calls `tr`, starting from `w`. -/
def run (w : World) (tr : List Event) : World :=
  tr.foldl step w

/-! ## What a trace shows -/

/-- The entry handed to `w.Copy`, when the call is one. -/
def Event.copyCall : Event → Option File
  | .copy _ file _ _ => some file
  | _ => none

/-- The entry copied, when the call is a `w.Copy` that returned nil. -/
def Event.copiedFile : Event → Option File
  | .copy _ file none _ => some file
  | _ => none

/-- The name opened, when the call is a `zip.OpenReader`. -/
def Event.openCall : Event → Option String
  | .openReader name _ => some name
  | _ => none

/-- The bytes the call made the writer put on the stream. -/
def Event.bytes : Event → List Byte
  | .copy _ _ _ bs => bs
  | .wClose _ bs => bs
  | _ => []

/-- An operation on the writer `w`. -/
inductive WriterOp where
  | copy
  | close
deriving DecidableEq, Repr

/-- The operation on the writer, when the call is one. -/
def Event.writerOp : Event → Option WriterOp
  | .copy _ _ _ _ => some WriterOp.copy
  | .wClose _ _ => some WriterOp.close
  | _ => none

/-- The entries handed to `w.Copy`, in call order. -/
def copyCalls (tr : List Event) : List File :=
  tr.filterMap Event.copyCall

/-- The entries whose `w.Copy` returned nil, in call order. -/
def copied (tr : List Event) : List File :=
  tr.filterMap Event.copiedFile

/-- The names passed to `zip.OpenReader`, in call order. -/
def openCalls (tr : List Event) : List String :=
  tr.filterMap Event.openCall

/-- The bytes the writer put on the stream, in order. -/
def written (tr : List Event) : List Byte :=
  (tr.map Event.bytes).flatten

/-- The operations on the writer, in call order. -/
def writerOps (tr : List Event) : List WriterOp :=
  tr.filterMap Event.writerOp

/-! ## What the command line and the environment determine -/

/-- The input archives: every positional argument with `-o`, the second and
subsequent ones without. -/
def inputs (outputFile : String) (args : List String) : List String :=
  if outputFile ≠ "" then args else args.tail

/-- The entries of the archive `name` at loop position `i`: `rc.File` of the
reader `zip.OpenReader` returns, none when it fails to open. -/
def entries (env : Env) (i : Nat) (name : String) : List File :=
  match env.openReader i name with
  | .ok files => files
  | .error _ => []

/-- Whether the archive at loop position `i` opens. -/
def opens (env : Env) (i : Nat) (name : String) : Bool :=
  match env.openReader i name with
  | .ok _ => true
  | .error _ => false

/-- The entries of archive `i` whose copy returns nil. -/
def copiedOf (env : Env) (i : Nat) (name : String) : List File :=
  ((entries env i name).enum.filter (fun jf => (env.copy i jf.1 jf.2).1.isNone)).map Prod.snd

/-- The concatenation of `g i name` over the names, `i` counting from `i0`. -/
def concatFrom (g : Nat → String → List File) (i0 : Nat) (names : List String) : List File :=
  ((names.enumFrom i0).map (fun p => g p.1 p.2)).flatten

/-- Whether the destination gets ready: at least one positional argument, and
with `-o` the file is created; without, the first archive opens read-write,
the seek to its end succeeds, it parses as a zip, and the seek to its append
offset succeeds. -/
def prepared (env : Env) (outputFile : String) (args : List String) : Bool :=
  match args with
  | [] => false
  | a0 :: _ =>
    if outputFile ≠ "" then (env.create outputFile).isNone
    else
      (env.openFile a0).isNone && env.seekEnd.isNone &&
        (match env.newReader (env.files a0).length with
         | .ok r => (env.seekSet r.appendOffset).isNone
         | .error _ => false)

/-- The calls that prepare the destination when all of them succeed. -/
def prepCalls (env : Env) (outputFile : String) (args : List String) : List Event :=
  if outputFile ≠ "" then [Event.create outputFile none, Event.newWriter]
  else
    match env.newReader (env.files (args.headD "")).length with
    | .ok r =>
      [Event.openFile (args.headD "") none,
       Event.seekEnd (env.files (args.headD "")).length none,
       Event.newReader (env.files (args.headD "")).length none,
       Event.appendOffset r.appendOffset,
       Event.seekSet r.appendOffset none, Event.append r]
    | .error _ => []

/-- Whether every archive of `names` opens. -/
def allOpen (env : Env) (names : List String) : Bool :=
  names.enum.all (fun p => opens env p.1 p.2)

/-- Whether every `w.Copy` of every entry of the archives `names` returns nil. -/
def allCopy (env : Env) (names : List String) : Bool :=
  names.enum.all (fun p =>
    (entries env p.1 p.2).enum.all (fun q => (env.copy p.1 q.1 q.2).1.isNone))

/-- Whether the call prints a log line that reports a skipped archive or entry. -/
def Event.isLog : Event → Bool
  | .logPrint _ => true
  | .logPrintf _ _ _ => true
  | _ => false

/-- Whether the call is one of the merge loop, lines 77-88. -/
def Event.inLoop : Event → Bool
  | .openReader _ _ => true
  | .logPrint _ => true
  | .copy _ _ _ _ => true
  | .logPrintf _ _ _ => true
  | _ => false

/-- Whether the call is a failed step of preparing the destination. -/
def Event.failedPrep : Event → Bool
  | .create _ (some _) => true
  | .openFile _ (some _) => true
  | .seekEnd _ (some _) => true
  | .newReader _ (some _) => true
  | .seekSet _ (some _) => true
  | _ => false

/-- Whether the call is a failed `w.Close` or `f.Close`. -/
def Event.failedFinalize : Event → Bool
  | .wClose (some _) _ => true
  | .fClose _ (some _) => true
  | _ => false

/-- Whether the call is `log.Fatal`. -/
def Event.isFatal : Event → Bool
  | .fatal _ => true
  | _ => false

/-- The path of the destination file. -/
def destPath (outputFile : String) (args : List String) : String :=
  if outputFile ≠ "" then outputFile else args.headD ""

/-- The text of the line `log.Printf("copying from %s (%s): %v", ...)` prints,
after the prefix set by `log.SetPrefix`. -/
def copyingFrom (name entry : String) (err : Err) : String :=
  "copying from " ++ name ++ " (" ++ entry ++ "): " ++ err

/-- The archive being read when the call is made or returns: the name of the
`zip.OpenReader` that succeeded, and of every copy and copy report under it. -/
def Event.reading : Event → Option String
  | .openReader name none => some name
  | .copy name _ _ _ => some name
  | .logPrintf name _ _ => some name
  | _ => none

/-- Whether the call prints a "copying from" line. -/
def Event.isCopyLog : Event → Bool
  | .logPrintf _ _ _ => true
  | _ => false

/-- Whether the call is a `w.Copy` that returned an error. -/
def Event.failedCopy : Event → Bool
  | .copy _ _ (some _) _ => true
  | _ => false

/-- What holds of each call `a` and the call `b` made right after it: a failed
copy is followed by its "copying from" line, with the archive being read, the
name of the entry and the error; such a line follows only the failed copy it
reports; after a copy that returned nil no log line comes; and a copy is made
while the archive it names is being read. -/
def Follows (a b : Event) : Prop :=
  (∀ name file e bs, a = Event.copy name file (some e) bs →
      b = Event.logPrintf name file.Name e)
    ∧ (∀ name entry e, b = Event.logPrintf name entry e →
        ∃ file bs, a = Event.copy name file (some e) bs ∧ entry = file.Name)
    ∧ (∀ name file bs, a = Event.copy name file none bs → b.isLog = false)
    ∧ (∀ name file err bs, b = Event.copy name file err bs → a.reading = some name)

/-- Whether the call opens or creates the destination, moves its cursor,
reads the append offset, or attaches a writer. -/
def Event.positions : Event → Bool
  | .create _ _ => true
  | .openFile _ _ => true
  | .seekEnd _ _ => true
  | .newReader _ _ => true
  | .appendOffset _ => true
  | .seekSet _ _ => true
  | .newWriter => true
  | .append _ => true
  | _ => false

/-- The reader a writer is attached to by the call: `some none` for
`zip.NewWriter` (no reader), `some (some r)` for `r.Append`. -/
def Event.attach : Event → Option (Option Reader)
  | .newWriter => some none
  | .append r => some (some r)
  | _ => none

/-- Whether the call leaves a new open handle on `path`. -/
def Event.opensPath (path : String) : Event → Bool
  | .create p none => p = path
  | .openFile p none => p = path
  | .openReader p none => p = path
  | _ => false

/-- The paths named on the command line: the `-o` file, if given, and the
positional arguments. -/
def named (outputFile : String) (args : List String) : List String :=
  if outputFile ≠ "" then outputFile :: args else args

/-- The calls of lines 58-70 when all succeed: open `path` read-write, seek to
its end (`size`), parse it, read the append offset `off` and seek there. -/
def positionCalls (path : String) (size off : Nat) : List Event :=
  [Event.openFile path none, Event.seekEnd size none, Event.newReader size none,
   Event.appendOffset off, Event.seekSet off none]

/-! ## Sample runs -/

/-- An entry `x.txt`. -/
def fileX : File := ⟨"x.txt", 8, 305419896, 3, 5⟩

/-- An entry `y.txt`. -/
def fileY : File := ⟨"y.txt", 0, 1, 2, 2⟩

/-- An empty archive whose end record carries the three-byte comment `abc`:
the 22-byte end-of-central-directory record, then the comment. -/
def emptyZipWithComment : List Byte :=
  [80, 75, 5, 6, 0, 0, 0, 0, 0, 0, 0, 0, 0, 0, 0, 0, 0, 0, 0, 0, 3, 0, 97, 98, 99]

/-- The end record of an empty archive without comment, 22 bytes. -/
def emptyEndRecord : List Byte :=
  [80, 75, 5, 6, 0, 0, 0, 0, 0, 0, 0, 0, 0, 0, 0, 0, 0, 0, 0, 0, 0, 0]

/-- An environment where every call succeeds.  `a.zip` is an empty archive
with a comment (append offset 0), `b.zip` holds `x.txt` and `y.txt`, `c.zip`
holds another `x.txt`; a copy writes a five-byte record, and `w.Close` writes
the end record of an empty archive. -/
def okEnv : Env where
  files := fun p => if p = "a.zip" then emptyZipWithComment else [80, 75]
  create := fun _ => none
  openFile := fun _ => none
  seekEnd := none
  newReader := fun _ => .ok ⟨[], 0⟩
  seekSet := fun _ => none
  openReader := fun _ name =>
    if name = "b.zip" then .ok [fileX, fileY]
    else if name = "c.zip" then .ok [fileX]
    else if name = "a.zip" then .ok []
    else .error ("open " ++ name ++ ": no such file or directory")
  copy := fun _ _ file => (none, [80, 75, 3, 4, file.CompressedSize])
  wClose := (none, emptyEndRecord)
  fClose := none

/-- An environment with partial failures: the archive at loop position 1 does
not open, and the copy of the second entry of every archive fails after
writing one byte. -/
def flakyEnv : Env where
  files := fun p => if p = "a.zip" then emptyZipWithComment else [80, 75]
  create := fun _ => none
  openFile := fun _ => none
  seekEnd := none
  newReader := fun _ => .ok ⟨[], 0⟩
  seekSet := fun _ => none
  openReader := fun i name =>
    if i = 1 then .error "zip: not a valid zip file"
    else if name = "b.zip" then .ok [fileX, fileY]
    else .ok [fileX]
  copy := fun _ j file =>
    if j = 1 then (some "unexpected EOF", [80]) else (none, [80, 75, 3, 4, file.CompressedSize])
  wClose := (none, emptyEndRecord)
  fClose := none

/-- An environment for `zipmerge -o a.zip a.zip b.zip`: `os.Create` has emptied
`a.zip` before it is read, so it does not open as an archive; `b.zip` holds
`x.txt`. -/
def clobberEnv : Env where
  files := fun p => if p = "a.zip" then emptyZipWithComment else [80, 75]
  create := fun _ => none
  openFile := fun _ => none
  seekEnd := none
  newReader := fun _ => .ok ⟨[], 0⟩
  seekSet := fun _ => none
  openReader := fun _ name =>
    if name = "b.zip" then .ok [fileX] else .error "zip: not a valid zip file"
  copy := fun _ _ file => (none, [80, 75, 3, 4, file.CompressedSize])
  wClose := (none, emptyEndRecord)
  fClose := none

/-! ## The shape of a run -/

theorem copyCalls_append (l₁ l₂ : List Event) :
    copyCalls (l₁ ++ l₂) = copyCalls l₁ ++ copyCalls l₂ := by
  simp [copyCalls]

theorem copied_append (l₁ l₂ : List Event) :
    copied (l₁ ++ l₂) = copied l₁ ++ copied l₂ := by
  simp [copied]

theorem openCalls_append (l₁ l₂ : List Event) :
    openCalls (l₁ ++ l₂) = openCalls l₁ ++ openCalls l₂ := by
  simp [openCalls]

theorem writerOps_append (l₁ l₂ : List Event) :
    writerOps (l₁ ++ l₂) = writerOps l₁ ++ writerOps l₂ := by
  simp [writerOps]

theorem written_append (l₁ l₂ : List Event) :
    written (l₁ ++ l₂) = written l₁ ++ written l₂ := by
  simp [written]

/-- A run whose destination gets ready is the preparing calls, the merge
loop over the inputs, and the two closes. -/
theorem main_of_prepared (env : Env) (outputFile : String) (args : List String)
    (h : prepared env outputFile args = true) :
    main env outputFile args
      = mergeAndFinish env (destPath outputFile args) (inputs outputFile args)
          (prepCalls env outputFile args) := by
  cases args with
  | nil => simp [prepared] at h
  | cons a0 rest =>
    by_cases ho : outputFile = ""
    · subst ho
      simp only [prepared, ne_eq, not_true_eq_false, if_false, Bool.and_eq_true,
        Option.isNone_iff_eq_none] at h
      obtain ⟨⟨h1, h2⟩, h3⟩ := h
      cases hr : env.newReader (env.files a0).length with
      | error e => simp [hr] at h3
      | ok r =>
        simp only [hr, Option.isNone_iff_eq_none] at h3
        simp [main, h1, h2, hr, h3, destPath, inputs, prepCalls]
    · simp only [prepared, ne_eq, ho, not_false_eq_true, if_true,
        Option.isNone_iff_eq_none] at h
      simp [main, ho, h, destPath, inputs, prepCalls]

/-! ## The two loops -/

theorem copyCalls_copyEntries (env : Env) (i : Nat) (name : String) (files : List File) :
    ∀ j, copyCalls (copyEntries env i name j files) = files := by
  induction files with
  | nil => intro j; rfl
  | cons file rest ih =>
    intro j
    rw [copyEntries, copyCalls_append, ih]
    cases h : (env.copy i j file).1 <;> simp [copyCalls, Event.copyCall]

theorem copied_copyEntries (env : Env) (i : Nat) (name : String) (files : List File) :
    ∀ j, copied (copyEntries env i name j files)
      = ((files.enumFrom j).filter (fun jf => (env.copy i jf.1 jf.2).1.isNone)).map Prod.snd := by
  induction files with
  | nil => intro j; rfl
  | cons file rest ih =>
    intro j
    rw [copyEntries, copied_append, ih]
    cases h : (env.copy i j file).1 <;>
      simp [copied, Event.copiedFile, List.enumFrom_cons, List.filter_cons, h]

theorem openCalls_copyEntries (env : Env) (i : Nat) (name : String) (files : List File) :
    ∀ j, openCalls (copyEntries env i name j files) = [] := by
  induction files with
  | nil => intro j; rfl
  | cons file rest ih =>
    intro j
    rw [copyEntries, openCalls_append, ih]
    cases h : (env.copy i j file).1 <;> simp [openCalls, Event.openCall]

theorem writerOps_copyEntries (env : Env) (i : Nat) (name : String) (files : List File) :
    ∀ j, writerOps (copyEntries env i name j files)
      = List.replicate files.length WriterOp.copy := by
  induction files with
  | nil => intro j; rfl
  | cons file rest ih =>
    intro j
    rw [copyEntries, writerOps_append, ih]
    cases h : (env.copy i j file).1 <;>
      simp [writerOps, Event.writerOp, List.replicate_succ]

theorem concatFrom_cons (g : Nat → String → List File) (i : Nat) (name : String)
    (rest : List String) :
    concatFrom g i (name :: rest) = g i name ++ concatFrom g (i + 1) rest := by
  simp [concatFrom, List.enumFrom_cons]

theorem copyCalls_mergeLoop (env : Env) (names : List String) :
    ∀ i, copyCalls (mergeLoop env i names) = concatFrom (entries env) i names := by
  induction names with
  | nil => intro i; rfl
  | cons name rest ih =>
    intro i
    rw [mergeLoop, copyCalls_append, ih, concatFrom_cons]
    congr 1
    cases h : env.openReader i name with
    | error e => simp [copyCalls, Event.copyCall, entries, h]
    | ok files =>
      have := copyCalls_copyEntries env i name files 0
      simp only [copyCalls] at this
      simp [copyCalls, Event.copyCall, entries, h, this]

theorem copied_mergeLoop (env : Env) (names : List String) :
    ∀ i, copied (mergeLoop env i names) = concatFrom (copiedOf env) i names := by
  induction names with
  | nil => intro i; rfl
  | cons name rest ih =>
    intro i
    rw [mergeLoop, copied_append, ih, concatFrom_cons]
    congr 1
    cases h : env.openReader i name with
    | error e => simp [copied, Event.copiedFile, copiedOf, entries, h]
    | ok files =>
      have := copied_copyEntries env i name files 0
      simp only [copied] at this
      simp [copied, Event.copiedFile, copiedOf, entries, h, this, List.enum]

theorem openCalls_mergeLoop (env : Env) (names : List String) :
    ∀ i, openCalls (mergeLoop env i names) = names := by
  induction names with
  | nil => intro i; rfl
  | cons name rest ih =>
    intro i
    rw [mergeLoop, openCalls_append, ih]
    cases h : env.openReader i name with
    | error e => simp [openCalls, Event.openCall]
    | ok files =>
      have := openCalls_copyEntries env i name files 0
      simp only [openCalls] at this
      simp [openCalls, Event.openCall, this]

theorem writerOps_mergeLoop (env : Env) (names : List String) :
    ∀ i, writerOps (mergeLoop env i names)
      = List.replicate (copyCalls (mergeLoop env i names)).length WriterOp.copy := by
  induction names with
  | nil => intro i; rfl
  | cons name rest ih =>
    intro i
    rw [mergeLoop, writerOps_append, copyCalls_append, ih, List.length_append,
      List.replicate_add]
    congr 1
    cases h : env.openReader i name with
    | error e => simp [writerOps, Event.writerOp, copyCalls, Event.copyCall]
    | ok files =>
      have h1 := writerOps_copyEntries env i name files 0
      have h2 := copyCalls_copyEntries env i name files 0
      simp only [writerOps] at h1
      simp only [copyCalls] at h2
      simp [writerOps, Event.writerOp, copyCalls, Event.copyCall, h1, h2]

theorem inLoop_copyEntries (env : Env) (i : Nat) (name : String) (files : List File) :
    ∀ j, ∀ e ∈ copyEntries env i name j files, e.inLoop = true := by
  induction files with
  | nil => intro j e he; simp [copyEntries] at he
  | cons file rest ih =>
    intro j e he
    rw [copyEntries, List.mem_append] at he
    rcases he with he | he
    · cases h : (env.copy i j file).1 <;> simp [h] at he
      · subst he; rfl
      · rcases he with he | he <;> subst he <;> rfl
    · exact ih _ e he

theorem inLoop_mergeLoop (env : Env) (names : List String) :
    ∀ i, ∀ e ∈ mergeLoop env i names, e.inLoop = true := by
  induction names with
  | nil => intro i e he; simp [mergeLoop] at he
  | cons name rest ih =>
    intro i e he
    rw [mergeLoop, List.mem_append] at he
    rcases he with he | he
    · cases h : env.openReader i name with
      | error err =>
        simp [h] at he
        rcases he with he | he <;> subst he <;> rfl
      | ok files =>
        simp [h] at he
        rcases he with he | he
        · subst he; rfl
        · exact inLoop_copyEntries env i name files 0 e he
    · exact ih _ e he

theorem noLog_copyEntries (env : Env) (i : Nat) (name : String) (files : List File) :
    ∀ j, (∀ q ∈ files.enumFrom j, (env.copy i q.1 q.2).1.isNone = true) →
      ∀ e ∈ copyEntries env i name j files, e.isLog = false := by
  induction files with
  | nil => intro j _ e he; simp [copyEntries] at he
  | cons file rest ih =>
    intro j hq e he
    rw [copyEntries, List.mem_append] at he
    have h0 : (env.copy i j file).1 = none := by
      have := hq (j, file) (by simp [List.enumFrom_cons])
      simpa using this
    rcases he with he | he
    · simp [h0] at he
      subst he; rfl
    · refine ih (j + 1) ?_ e he
      intro q hq'
      exact hq q (by simp [List.enumFrom_cons, hq'])

theorem noLog_mergeLoop (env : Env) (names : List String) :
    ∀ i, (∀ p ∈ names.enumFrom i, opens env p.1 p.2 = true) →
      (∀ p ∈ names.enumFrom i, ∀ q ∈ (entries env p.1 p.2).enum,
        (env.copy p.1 q.1 q.2).1.isNone = true) →
      ∀ e ∈ mergeLoop env i names, e.isLog = false := by
  induction names with
  | nil => intro i _ _ e he; simp [mergeLoop] at he
  | cons name rest ih =>
    intro i ho hc e he
    rw [mergeLoop, List.mem_append] at he
    rcases he with he | he
    · have h1 := ho (i, name) (by simp [List.enumFrom_cons])
      have h2 := hc (i, name) (by simp [List.enumFrom_cons])
      cases h : env.openReader i name with
      | error err => simp [opens, h] at h1
      | ok files =>
        simp [h] at he
        rcases he with he | he
        · subst he; rfl
        · refine noLog_copyEntries env i name files 0 ?_ e he
          simpa [entries, h, List.enum] using h2
    · refine ih (i + 1) ?_ ?_ e he
      · intro p hp; exact ho p (by simp [List.enumFrom_cons, hp])
      · intro p hp; exact hc p (by simp [List.enumFrom_cons, hp])

theorem copiedOf_eq_entries (env : Env) (i : Nat) (name : String)
    (h : ∀ q ∈ (entries env i name).enum, (env.copy i q.1 q.2).1.isNone = true) :
    copiedOf env i name = entries env i name := by
  unfold copiedOf
  rw [List.filter_eq_self.mpr h]
  simp [List.enum]

theorem concatFrom_congr (g₁ g₂ : Nat → String → List File) (names : List String) (i : Nat)
    (h : ∀ p ∈ names.enumFrom i, g₁ p.1 p.2 = g₂ p.1 p.2) :
    concatFrom g₁ i names = concatFrom g₂ i names := by
  unfold concatFrom
  congr 1
  exact List.map_congr_left h

theorem finish_trace (env : Env) (path : String) :
    (finish env path).trace
        = [Event.wClose (some (env.wClose.1.getD "")) env.wClose.2,
           Event.fatal ("finishing zip file: %v" ++ env.wClose.1.getD "")]
          ∧ env.wClose.1 ≠ none ∧ (finish env path).exit = 1
    ∨ (finish env path).trace
        = [Event.wClose none env.wClose.2, Event.fClose path (some (env.fClose.getD "")),
           Event.fatal ("finishing zip file: %v" ++ env.fClose.getD "")]
          ∧ env.wClose.1 = none ∧ env.fClose ≠ none ∧ (finish env path).exit = 1
    ∨ (finish env path).trace = [Event.wClose none env.wClose.2, Event.fClose path none]
          ∧ env.wClose.1 = none ∧ env.fClose = none ∧ (finish env path).exit = 0 := by
  unfold finish
  cases h1 : env.wClose.1 with
  | some e => simp
  | none =>
    cases h2 : env.fClose with
    | some e => simp
    | none => simp

theorem main_of_unprepared (env : Env) (outputFile : String) (args : List String)
    (hargs : args ≠ []) (h : prepared env outputFile args = false) :
    (main env outputFile args).exit = 1
      ∧ (∀ e ∈ (main env outputFile args).trace,
          e.inLoop = false ∧ e.writerOp = none ∧ e.failedFinalize = false)
      ∧ (main env outputFile args).trace.any Event.failedPrep = true
      ∧ (main env outputFile args).trace.any Event.isFatal = true := by
  cases args with
  | nil => exact absurd rfl hargs
  | cons a0 rest =>
    by_cases ho : outputFile = ""
    · subst ho
      simp only [prepared, ne_eq, not_true_eq_false, if_false] at h
      cases h1 : env.openFile a0 with
      | some e => simp [main, h1, Event.inLoop, Event.writerOp, Event.failedFinalize, Event.failedPrep, Event.isFatal]
      | none =>
        cases h2 : env.seekEnd with
        | some e => simp [main, h1, h2, Event.inLoop, Event.writerOp, Event.failedFinalize, Event.failedPrep, Event.isFatal]
        | none =>
          cases hr : env.newReader (env.files a0).length with
          | error e => simp [main, h1, h2, hr, Event.inLoop, Event.writerOp, Event.failedFinalize, Event.failedPrep, Event.isFatal]
          | ok r =>
            cases h3 : env.seekSet r.appendOffset with
            | some e => simp [main, h1, h2, hr, h3, Event.inLoop, Event.writerOp, Event.failedFinalize, Event.failedPrep, Event.isFatal]
            | none => simp [h1, h2, hr, h3] at h
    · simp only [prepared, ne_eq, ho, not_false_eq_true, if_true] at h
      cases h1 : env.create outputFile with
      | some e => simp [main, ho, h1, Event.inLoop, Event.writerOp, Event.failedFinalize, Event.failedPrep, Event.isFatal]
      | none => simp [h1] at h

theorem prepCalls_quiet (env : Env) (outputFile : String) (args : List String) :
    ∀ e ∈ prepCalls env outputFile args,
      e.inLoop = false ∧ e.writerOp = none ∧ e.failedFinalize = false
        ∧ e.failedPrep = false ∧ e.isFatal = false := by
  intro e he
  unfold prepCalls at he
  split at he
  · simp at he
    rcases he with he | he <;> subst he <;> simp [Event.inLoop, Event.writerOp, Event.failedFinalize, Event.failedPrep, Event.isFatal]
  · split at he
    · simp at he
      rcases he with he | he | he | he | he | he <;> subst he <;>
        simp [Event.inLoop, Event.writerOp, Event.failedFinalize, Event.failedPrep, Event.isFatal]
    · simp at he

theorem copyCall_of_not_inLoop (e : Event) (h : e.inLoop = false) :
    e.copyCall = none ∧ e.copiedFile = none ∧ e.openCall = none := by
  cases e <;> simp_all [Event.inLoop, Event.copyCall, Event.copiedFile, Event.openCall]

theorem filterMap_none {α : Type} (f : Event → Option α) (l : List Event)
    (h : ∀ e ∈ l, f e = none) : l.filterMap f = [] := by
  induction l with
  | nil => rfl
  | cons e t ih =>
    rw [List.filterMap_cons, h e (by simp)]
    exact ih (fun x hx => h x (by simp [hx]))

theorem projections_prepCalls (env : Env) (outputFile : String) (args : List String) :
    copyCalls (prepCalls env outputFile args) = []
      ∧ copied (prepCalls env outputFile args) = []
      ∧ openCalls (prepCalls env outputFile args) = []
      ∧ writerOps (prepCalls env outputFile args) = [] := by
  have h := prepCalls_quiet env outputFile args
  refine ⟨filterMap_none _ _ ?_, filterMap_none _ _ ?_, filterMap_none _ _ ?_,
    filterMap_none _ _ ?_⟩
  · intro e he; exact (copyCall_of_not_inLoop e (h e he).1).1
  · intro e he; exact (copyCall_of_not_inLoop e (h e he).1).2.1
  · intro e he; exact (copyCall_of_not_inLoop e (h e he).1).2.2
  · intro e he; exact (h e he).2.1

theorem projections_finish (env : Env) (path : String) :
    copyCalls (finish env path).trace = []
      ∧ copied (finish env path).trace = []
      ∧ openCalls (finish env path).trace = []
      ∧ writerOps (finish env path).trace = [WriterOp.close] := by
  rcases finish_trace env path with h | h | h <;> rw [h.1] <;>
    simp [copyCalls, copied, openCalls, writerOps, Event.copyCall, Event.copiedFile,
      Event.openCall, Event.writerOp]

/-- C1. Order preservation: when the destination gets ready, every input opens
and every copy succeeds, the entries handed to `w.Copy` (and the entries
copied) are the concatenation of the entries of the inputs in command-line
order, each archive in directory order, and nothing is logged; the inputs are
all positional arguments with `-o`, the second and subsequent ones without. -/
theorem order_preservation (env : Env) (outputFile : String) (args : List String)
    (hprep : prepared env outputFile args = true)
    (hopen : allOpen env (inputs outputFile args) = true)
    (hcopy : allCopy env (inputs outputFile args) = true) :
    copyCalls (main env outputFile args).trace
        = concatFrom (entries env) 0 (inputs outputFile args)
      ∧ copied (main env outputFile args).trace
        = concatFrom (entries env) 0 (inputs outputFile args)
      ∧ (∀ e ∈ (main env outputFile args).trace, e.isLog = false)
      ∧ (outputFile ≠ "" → inputs outputFile args = args)
      ∧ (outputFile = "" → inputs outputFile args = args.tail) := by
  have hp := projections_prepCalls env outputFile args
  have hf := projections_finish env (destPath outputFile args)
  simp only [allOpen, List.all_eq_true] at hopen
  simp only [allCopy, List.all_eq_true] at hcopy
  rw [main_of_prepared env outputFile args hprep]
  simp only [mergeAndFinish, copyCalls_append, copied_append, hp.1, hp.2.1, hf.1, hf.2.1,
    copyCalls_mergeLoop, copied_mergeLoop, List.nil_append, List.append_nil]
  refine ⟨trivial, ?_, ?_, ?_, ?_⟩
  · exact concatFrom_congr _ _ _ _ (fun p hp => copiedOf_eq_entries env p.1 p.2 (hcopy p hp))
  · intro e he
    simp only [List.mem_append] at he
    rcases he with (he | he) | he
    · have := prepCalls_quiet env outputFile args e he
      cases e <;> simp_all [Event.inLoop, Event.isLog]
    · exact noLog_mergeLoop env _ 0 hopen hcopy e he
    · rcases finish_trace env (destPath outputFile args) with h | h | h <;> rw [h.1] at he <;>
        simp only [List.mem_cons, List.mem_singleton, List.not_mem_nil, or_false] at he
      · rcases he with rfl | rfl <;> rfl
      · rcases he with rfl | rfl | rfl <;> rfl
      · rcases he with rfl | rfl <;> rfl
  · intro h; simp [inputs, h]
  · intro h; simp [inputs, h]

theorem order_preservation_witness :
    prepared okEnv "" ["a.zip", "b.zip", "c.zip"] = true
      ∧ allOpen okEnv (inputs "" ["a.zip", "b.zip", "c.zip"]) = true
      ∧ allCopy okEnv (inputs "" ["a.zip", "b.zip", "c.zip"]) = true
      ∧ copyCalls (main okEnv "" ["a.zip", "b.zip", "c.zip"]).trace = [fileX, fileY, fileX]
      ∧ concatFrom (entries okEnv) 0 (inputs "" ["a.zip", "b.zip", "c.zip"])
          = [fileX, fileY, fileX] :=
  ⟨by decide, by decide, by decide,
   (order_preservation okEnv "" ["a.zip", "b.zip", "c.zip"]
      (by decide) (by decide) (by decide)).1.trans (by decide),
   by decide⟩

theorem finish_head (env : Env) (path : String) :
    ∃ post, (finish env path).trace = Event.wClose env.wClose.1 env.wClose.2 :: post
      ∧ ∀ e ∈ post, e.inLoop = false ∧ e.writerOp = none ∧ e.failedPrep = false := by
  unfold finish
  cases h1 : env.wClose.1 with
  | some e => exact ⟨_, rfl, by simp [Event.inLoop, Event.writerOp, Event.failedPrep]⟩
  | none =>
    cases h2 : env.fClose with
    | some e => exact ⟨_, rfl, by simp [Event.inLoop, Event.writerOp, Event.failedPrep]⟩
    | none => exact ⟨_, rfl, by simp [Event.inLoop, Event.writerOp, Event.failedPrep]⟩

theorem finish_quiet (env : Env) (path : String) :
    ∀ e ∈ (finish env path).trace, e.inLoop = false ∧ e.failedPrep = false := by
  obtain ⟨post, h, hp⟩ := finish_head env path
  intro e he
  rw [h, List.mem_cons] at he
  rcases he with rfl | he
  · exact ⟨rfl, rfl⟩
  · exact ⟨(hp e he).1, (hp e he).2.2⟩

theorem inLoop_quiet (e : Event) (h : e.inLoop = true) :
    e.failedPrep = false ∧ e.failedFinalize = false ∧ e.isFatal = false := by
  cases e <;> simp_all [Event.inLoop, Event.failedPrep, Event.failedFinalize, Event.isFatal]

/-- C4. Partial failure does not abort the merge: once the destination is
ready, whatever opens and copies fail, `zip.OpenReader` is called on every
input, `w.Copy` is called on every entry of every input that opened, in
order, the entries copied are those minus the ones whose copy failed, and
`w.Close` is reached after all of them. -/
theorem partial_failure_continues (env : Env) (outputFile : String) (args : List String)
    (hprep : prepared env outputFile args = true) :
    openCalls (main env outputFile args).trace = inputs outputFile args
      ∧ copyCalls (main env outputFile args).trace
          = concatFrom (entries env) 0 (inputs outputFile args)
      ∧ copied (main env outputFile args).trace
          = concatFrom (copiedOf env) 0 (inputs outputFile args)
      ∧ ∃ pre post, (main env outputFile args).trace
            = pre ++ Event.wClose env.wClose.1 env.wClose.2 :: post
          ∧ openCalls pre = inputs outputFile args
          ∧ copyCalls pre = concatFrom (entries env) 0 (inputs outputFile args)
          ∧ copyCalls post = [] := by
  have hp := projections_prepCalls env outputFile args
  have hf := projections_finish env (destPath outputFile args)
  obtain ⟨post, hpost, hq⟩ := finish_head env (destPath outputFile args)
  rw [main_of_prepared env outputFile args hprep]
  simp only [mergeAndFinish, copyCalls_append, copied_append, openCalls_append, hp.1, hp.2.1,
    hp.2.2.1, hf.1, hf.2.1, hf.2.2.1, copyCalls_mergeLoop, copied_mergeLoop,
    openCalls_mergeLoop, List.nil_append, List.append_nil, true_and]
  refine ⟨prepCalls env outputFile args ++ mergeLoop env 0 (inputs outputFile args), post,
    by rw [hpost], ?_, ?_, ?_⟩
  · simp [openCalls_append, hp.2.2.1, openCalls_mergeLoop]
  · simp [copyCalls_append, hp.1, copyCalls_mergeLoop]
  · exact filterMap_none _ _ (fun e he => (copyCall_of_not_inLoop e (hq e he).1).1)

theorem partial_failure_continues_witness :
    prepared flakyEnv "out.zip" ["b.zip", "c.zip", "d.zip"] = true
      ∧ copyCalls (main flakyEnv "out.zip" ["b.zip", "c.zip", "d.zip"]).trace
          = [fileX, fileY, fileX]
      ∧ copied (main flakyEnv "out.zip" ["b.zip", "c.zip", "d.zip"]).trace
          = [fileX, fileX] :=
  ⟨by decide,
   (partial_failure_continues flakyEnv "out.zip" ["b.zip", "c.zip", "d.zip"]
      (by decide)).2.1.trans (by decide),
   (partial_failure_continues flakyEnv "out.zip" ["b.zip", "c.zip", "d.zip"]
      (by decide)).2.2.1.trans (by decide)⟩

/-- C6. The writer protocol: the operations `main` performs on the writer are
some number of `Copy` followed by exactly one `Close` when the destination
gets ready, and none at all otherwise. -/
theorem writer_protocol (env : Env) (outputFile : String) (args : List String) :
    writerOps (main env outputFile args).trace
      = if prepared env outputFile args = true then
          List.replicate (copyCalls (main env outputFile args).trace).length WriterOp.copy
            ++ [WriterOp.close]
        else [] := by
  by_cases hprep : prepared env outputFile args = true
  · have hp := projections_prepCalls env outputFile args
    have hf := projections_finish env (destPath outputFile args)
    rw [if_pos hprep, main_of_prepared env outputFile args hprep]
    simp only [mergeAndFinish, copyCalls_append, writerOps_append, hp.1, hp.2.2.2, hf.1,
      hf.2.2.2, List.nil_append, List.append_nil]
    rw [writerOps_mergeLoop]
  · rw [if_neg hprep]
    cases args with
    | nil => simp [main, writerOps, Event.writerOp]
    | cons a0 rest =>
      have h := main_of_unprepared env outputFile (a0 :: rest) (by simp) (by simpa using hprep)
      exact filterMap_none _ _ (fun e he => (h.2.1 e he).2.1)

theorem any_false_of_forall (p : Event → Bool) (l : List Event)
    (h : ∀ e ∈ l, p e = false) : l.any p = false := by
  rw [List.any_eq_false]
  intro e he
  simp [h e he]

theorem finish_exit (env : Env) (path : String) :
    ((finish env path).exit = 1 ↔ (finish env path).trace.any Event.failedFinalize = true)
      ∧ ((finish env path).exit = 1 ↔ (finish env path).trace.any Event.isFatal = true)
      ∧ ((finish env path).exit = 1 ∨ (finish env path).exit = 0)
      ∧ ((finish env path).exit = 0 ↔ env.wClose.1 = none ∧ env.fClose = none) := by
  rcases finish_trace env path with h | h | h
  · rw [h.1, h.2.2]; simp [Event.failedFinalize, Event.isFatal, h.2.1]
  · rw [h.1, h.2.2.2]; simp [Event.failedFinalize, Event.isFatal, h.2.2.1]
  · rw [h.1, h.2.2.2]; simp [Event.failedFinalize, Event.isFatal, h.2.1, h.2.2.1]

/-- C5. Abort if and only if the destination or finalize fails: in a run with
at least one positional argument the process exits with status 1 exactly when
a call that prepares the destination failed or `w.Close` or `f.Close` failed,
and exactly when `log.Fatal` was called; otherwise it exits with status 0.  A
failed preparation is the only way not to get ready, and then no input is
opened and no entry copied.  The exit status does not depend on the outcome
of any `zip.OpenReader` or `w.Copy`. -/
theorem abort_iff_destination_or_finalize (env : Env) (outputFile : String)
    (args : List String) (hargs : args ≠ []) :
    ((main env outputFile args).exit = 1 ↔
        (main env outputFile args).trace.any Event.failedPrep = true
          ∨ (main env outputFile args).trace.any Event.failedFinalize = true)
      ∧ ((main env outputFile args).exit = 1 ↔
          (main env outputFile args).trace.any Event.isFatal = true)
      ∧ ((main env outputFile args).exit = 1 ∨ (main env outputFile args).exit = 0)
      ∧ ((main env outputFile args).trace.any Event.failedPrep = true ↔
          prepared env outputFile args = false)
      ∧ ((main env outputFile args).trace.any Event.failedPrep = true →
          openCalls (main env outputFile args).trace = []
            ∧ copyCalls (main env outputFile args).trace = [])
      ∧ ((main env outputFile args).exit = 0 ↔
          prepared env outputFile args = true ∧ env.wClose.1 = none ∧ env.fClose = none)
      ∧ ∀ (openReader : Nat → String → Except Err (List File))
          (copy : Nat → Nat → File → Option Err × List Byte),
          (main { env with openReader := openReader, copy := copy } outputFile args).exit
            = (main env outputFile args).exit := by
  have key : ∀ env : Env,
      (prepared env outputFile args = true →
        (main env outputFile args).exit = (finish env (destPath outputFile args)).exit
          ∧ (main env outputFile args).trace.any Event.failedPrep = false
          ∧ (main env outputFile args).trace.any Event.failedFinalize
              = (finish env (destPath outputFile args)).trace.any Event.failedFinalize
          ∧ (main env outputFile args).trace.any Event.isFatal
              = (finish env (destPath outputFile args)).trace.any Event.isFatal) := by
    intro env hprep
    have h1 : (prepCalls env outputFile args).any Event.failedPrep = false :=
      any_false_of_forall _ _ (fun e he => (prepCalls_quiet env outputFile args e he).2.2.2.1)
    have h2 : (prepCalls env outputFile args).any Event.failedFinalize = false :=
      any_false_of_forall _ _ (fun e he => (prepCalls_quiet env outputFile args e he).2.2.1)
    have h3 : (prepCalls env outputFile args).any Event.isFatal = false :=
      any_false_of_forall _ _ (fun e he => (prepCalls_quiet env outputFile args e he).2.2.2.2)
    have l1 : (mergeLoop env 0 (inputs outputFile args)).any Event.failedPrep = false :=
      any_false_of_forall _ _ (fun e he => (inLoop_quiet e (inLoop_mergeLoop env _ 0 e he)).1)
    have l2 : (mergeLoop env 0 (inputs outputFile args)).any Event.failedFinalize = false :=
      any_false_of_forall _ _ (fun e he => (inLoop_quiet e (inLoop_mergeLoop env _ 0 e he)).2.1)
    have l3 : (mergeLoop env 0 (inputs outputFile args)).any Event.isFatal = false :=
      any_false_of_forall _ _ (fun e he => (inLoop_quiet e (inLoop_mergeLoop env _ 0 e he)).2.2)
    have f1 : (finish env (destPath outputFile args)).trace.any Event.failedPrep = false :=
      any_false_of_forall _ _ (fun e he => (finish_quiet env _ e he).2)
    rw [main_of_prepared env outputFile args hprep]
    simp [mergeAndFinish, List.any_append, h1, h2, h3, l1, l2, l3, f1]
  by_cases hprep : prepared env outputFile args = true
  · obtain ⟨k1, k2, k3, k4⟩ := key env hprep
    obtain ⟨e1, e2, e3, e4⟩ := finish_exit env (destPath outputFile args)
    refine ⟨?_, ?_, ?_, ?_, ?_, ?_, ?_⟩
    · rw [k1, k2, k3, e1]; simp
    · rw [k1, k4, e2]
    · rw [k1]; exact e3
    · rw [k2, hprep]; simp
    · rw [k2]; simp
    · rw [k1, e4]; simp [hprep]
    · intro openReader copy
      have hprep2 : prepared { env with openReader := openReader, copy := copy }
          outputFile args = true := hprep
      rw [(key _ hprep2).1, k1]
      rfl
  · have hprep0 : prepared env outputFile args = false := by simpa using hprep
    obtain ⟨u1, u2, u3, u4⟩ := main_of_unprepared env outputFile args hargs hprep0
    refine ⟨?_, ?_, ?_, ?_, ?_, ?_, ?_⟩
    · simp [u1, u3]
    · simp [u1, u4]
    · exact Or.inl u1
    · simp [u3, hprep0]
    · intro _
      exact ⟨filterMap_none _ _ (fun e he => (copyCall_of_not_inLoop e (u2 e he).1).2.2),
        filterMap_none _ _ (fun e he => (copyCall_of_not_inLoop e (u2 e he).1).1)⟩
    · simp [u1, hprep0]
    · intro openReader copy
      have hprep2 : prepared { env with openReader := openReader, copy := copy }
          outputFile args = false := hprep0
      rw [(main_of_unprepared _ outputFile args hargs hprep2).1, u1]

theorem abort_iff_destination_or_finalize_witness :
    ["a.zip", "b.zip", "c.zip"] ≠ []
      ∧ (main flakyEnv "" ["a.zip", "b.zip", "c.zip"]).exit = 0
      ∧ prepared flakyEnv "" ["a.zip", "b.zip", "c.zip"] = true :=
  ⟨by decide,
   ((abort_iff_destination_or_finalize flakyEnv "" ["a.zip", "b.zip", "c.zip"]
      (by decide)).2.2.2.2.2.1.mpr ⟨by decide, by decide, by decide⟩),
   by decide⟩

/-! ## Reports of failed copies -/

theorem follows_of_plain (a b : Event) (ha : a.copyCall = none)
    (hb : b.isLog = false ∧ b.copyCall = none) : Follows a b := by
  refine ⟨?_, ?_, ?_, ?_⟩
  · rintro name file e bs rfl; simp [Event.copyCall] at ha
  · rintro name entry e rfl; simp [Event.isLog] at hb
  · rintro name file bs rfl; simp [Event.copyCall] at ha
  · rintro name file err bs rfl; simp [Event.copyCall] at hb

theorem chain_copyEntries (env : Env) (i : Nat) (name : String) (files : List File)
    (tail : List Event) (ht : List.Chain' Follows tail)
    (hh : ∀ y ∈ tail.head?, y.isLog = false ∧ y.copyCall = none) :
    ∀ j, List.Chain' Follows (copyEntries env i name j files ++ tail)
      ∧ ∀ y ∈ (copyEntries env i name j files ++ tail).head?,
          (∃ file err bs, y = Event.copy name file err bs)
            ∨ (y.isLog = false ∧ y.copyCall = none) := by
  induction files with
  | nil =>
    intro j
    refine ⟨by simpa [copyEntries] using ht, ?_⟩
    intro y hy
    exact Or.inr (hh y (by simpa [copyEntries] using hy))
  | cons file rest ih =>
    intro j
    obtain ⟨ihc, ihh⟩ := ih (j + 1)
    rw [copyEntries]
    cases h : (env.copy i j file).1 with
    | none =>
      refine ⟨?_, ?_⟩
      · simp only [List.singleton_append, List.cons_append, List.nil_append]
        refine List.Chain'.cons' ihc ?_
        intro y hy
        refine ⟨?_, ?_, ?_, ?_⟩
        · rintro n f e bs h'; simp at h'
        · rintro n entry e rfl
          rcases ihh _ hy with ⟨f, err, bs, h'⟩ | h'
          · simp at h'
          · simp [Event.isLog] at h'
        · rintro n f bs -
          rcases ihh _ hy with ⟨f, err, bs, rfl⟩ | h'
          · rfl
          · exact h'.1
        · rintro n f err bs rfl
          rcases ihh _ hy with ⟨f', err', bs', h'⟩ | h'
          · simp at h'; simp [Event.reading, h'.1]
          · simp [Event.copyCall] at h'
      · intro y hy
        simp at hy
        exact Or.inl ⟨_, _, _, hy.symm⟩
    | some e =>
      refine ⟨?_, ?_⟩
      · simp only [List.singleton_append, List.cons_append, List.nil_append]
        refine List.Chain'.cons' (List.Chain'.cons' ihc ?_) ?_
        · intro y hy
          refine ⟨?_, ?_, ?_, ?_⟩
          · rintro n f e' bs h'; simp at h'
          · rintro n entry e' rfl
            rcases ihh _ hy with ⟨f, err, bs, h'⟩ | h'
            · simp at h'
            · simp [Event.isLog] at h'
          · rintro n f bs h'; simp at h'
          · rintro n f err bs rfl
            rcases ihh _ hy with ⟨f', err', bs', h'⟩ | h'
            · simp at h'; simp [Event.reading, h'.1]
            · simp [Event.copyCall] at h'
        · intro y hy
          simp at hy
          subst hy
          refine ⟨?_, ?_, ?_, ?_⟩
          · rintro n f e' bs h'
            simp at h'
            obtain ⟨rfl, rfl, rfl, -⟩ := h'
            rfl
          · rintro n entry e' h'
            simp at h'
            obtain ⟨rfl, rfl, rfl⟩ := h'
            exact ⟨file, _, rfl, rfl⟩
          · rintro n f bs h'; simp at h'
          · rintro n f err bs h'; simp at h'
      · intro y hy
        simp at hy
        exact Or.inl ⟨_, _, _, hy.symm⟩

theorem chain_mergeLoop (env : Env) (names : List String)
    (tail : List Event) (ht : List.Chain' Follows tail)
    (hh : ∀ y ∈ tail.head?, y.isLog = false ∧ y.copyCall = none) :
    ∀ i, List.Chain' Follows (mergeLoop env i names ++ tail)
      ∧ ∀ y ∈ (mergeLoop env i names ++ tail).head?,
          y.isLog = false ∧ y.copyCall = none := by
  induction names with
  | nil => intro i; exact ⟨by simpa [mergeLoop] using ht, by simpa [mergeLoop] using hh⟩
  | cons name rest ih =>
    intro i
    obtain ⟨ihc, ihh⟩ := ih (i + 1)
    rw [mergeLoop]
    cases h : env.openReader i name with
    | error e =>
      refine ⟨?_, ?_⟩
      · simp only [List.cons_append, List.nil_append, List.append_assoc]
        refine List.Chain'.cons' (List.Chain'.cons' ihc ?_) ?_
        · intro y hy
          exact follows_of_plain _ _ rfl (ihh y hy)
        · intro y hy
          simp at hy
          subst hy
          refine ⟨?_, ?_, ?_, ?_⟩
          · rintro n f e' bs h'; simp at h'
          · rintro n entry e' h'; simp at h'
          · rintro n f bs h'; simp at h'
          · rintro n f err bs h'; simp at h'
      · intro y hy
        simp at hy
        subst hy
        exact ⟨rfl, rfl⟩
    | ok files =>
      obtain ⟨c, hc⟩ := chain_copyEntries env i name files
        (mergeLoop env (i + 1) rest ++ tail) ihc ihh 0
      refine ⟨?_, ?_⟩
      · simp only [List.cons_append, List.append_assoc]
        refine List.Chain'.cons' c ?_
        intro y hy
        rcases hc y hy with ⟨f, err, bs, rfl⟩ | h'
        · refine ⟨?_, ?_, ?_, ?_⟩
          · rintro n f' e' bs' h'; simp at h'
          · rintro n entry e' h'; simp at h'
          · rintro n f' bs' h'; simp at h'
          · rintro n f' err' bs' h'
            simp at h'
            simp [Event.reading, h'.1]
        · exact follows_of_plain _ _ rfl h'
      · intro y hy
        simp at hy
        subst hy
        exact ⟨rfl, rfl⟩

theorem chain_plain (l tail : List Event) (hl : ∀ e ∈ l, e.isLog = false ∧ e.copyCall = none)
    (ht : List.Chain' Follows tail)
    (hh : ∀ y ∈ tail.head?, y.isLog = false ∧ y.copyCall = none) :
    List.Chain' Follows (l ++ tail)
      ∧ ∀ y ∈ (l ++ tail).head?, y.isLog = false ∧ y.copyCall = none := by
  induction l with
  | nil => exact ⟨by simpa using ht, by simpa using hh⟩
  | cons a t ih =>
    obtain ⟨c, hc⟩ := ih (fun e he => hl e (by simp [he]))
    refine ⟨?_, ?_⟩
    · rw [List.cons_append]
      exact List.Chain'.cons' c (fun y hy => follows_of_plain _ _ (hl a (by simp)).2 (hc y hy))
    · intro y hy
      simp at hy
      subst hy
      exact hl _ (by simp)

theorem plain_of_not_inLoop (e : Event) (h : e.inLoop = false) :
    e.isLog = false ∧ e.copyCall = none ∧ e.reading = none ∧ e.isCopyLog = false
      ∧ e.failedCopy = false := by
  cases e with
  | openReader name err => simp [Event.inLoop] at h
  | logPrint err => simp [Event.inLoop] at h
  | copy name file err bs => simp [Event.inLoop] at h
  | logPrintf name entry err => simp [Event.inLoop] at h
  | _ => exact ⟨rfl, rfl, rfl, rfl, rfl⟩

theorem count_copyEntries (env : Env) (i : Nat) (name : String) (files : List File) :
    ∀ j, (copyEntries env i name j files).countP Event.isCopyLog
      = (copyEntries env i name j files).countP Event.failedCopy := by
  induction files with
  | nil => intro j; rfl
  | cons file rest ih =>
    intro j
    rw [copyEntries, List.countP_append, List.countP_append, ih]
    cases h : (env.copy i j file).1 <;>
      simp [List.countP_cons, Event.isCopyLog, Event.failedCopy]

theorem count_mergeLoop (env : Env) (names : List String) :
    ∀ i, (mergeLoop env i names).countP Event.isCopyLog
      = (mergeLoop env i names).countP Event.failedCopy := by
  induction names with
  | nil => intro i; rfl
  | cons name rest ih =>
    intro i
    rw [mergeLoop, List.countP_append, List.countP_append, ih]
    cases h : env.openReader i name with
    | error e => simp [List.countP_cons, Event.isCopyLog, Event.failedCopy]
    | ok files =>
      simp [List.countP_cons, Event.isCopyLog, Event.failedCopy,
        count_copyEntries env i name files 0]

theorem reading_copyEntries (env : Env) (i : Nat) (name : String) (files : List File) :
    ∀ j, ∀ e ∈ copyEntries env i name j files, e.reading = some name := by
  induction files with
  | nil => intro j e he; simp [copyEntries] at he
  | cons file rest ih =>
    intro j e he
    rw [copyEntries, List.mem_append] at he
    rcases he with he | he
    · cases h : (env.copy i j file).1 <;> simp [h] at he
      · subst he; rfl
      · rcases he with he | he <;> subst he <;> rfl
    · exact ih _ e he

theorem reading_mergeLoop (env : Env) (names : List String) :
    ∀ i, ∀ e ∈ mergeLoop env i names, ∀ n, e.reading = some n → n ∈ names := by
  induction names with
  | nil => intro i e he; simp [mergeLoop] at he
  | cons name rest ih =>
    intro i e he n hn
    rw [mergeLoop, List.mem_append] at he
    rcases he with he | he
    · cases h : env.openReader i name with
      | error err =>
        simp [h] at he
        rcases he with he | he <;> subst he <;> simp [Event.reading] at hn
      | ok files =>
        simp [h] at he
        rcases he with he | he
        · subst he
          simp [Event.reading] at hn
          simp [hn]
        · have := reading_copyEntries env i name files 0 e he
          rw [this] at hn
          simp at hn
          simp [hn]
    · exact List.mem_cons_of_mem _ (ih _ e he n hn)

theorem infix_copyingFrom (name entry : String) (err : Err) :
    name.data <:+: (copyingFrom name entry err).data
      ∧ entry.data <:+: (copyingFrom name entry err).data
      ∧ "copying from ".data <+: (copyingFrom name entry err).data := by
  refine ⟨⟨"copying from ".data, (" (" ++ entry ++ "): " ++ err).data, ?_⟩,
    ⟨("copying from " ++ name ++ " (").data, ("): " ++ err).data, ?_⟩,
    ⟨(name ++ " (" ++ entry ++ "): " ++ err).data, ?_⟩⟩ <;>
  simp [copyingFrom, String.data_append, List.append_assoc]

/-- C7. Every failed entry is reported once with its source archive and name:
in every run the number of "copying from" lines equals the number of `w.Copy`
calls that returned an error; each failed copy is followed at once by its
line, which carries the archive being read, the `Name` of the entry and the
error, and each such line follows the failed copy it reports; no log line
follows a copy that returned nil; the archive named is one of the inputs of
the command line; and the text of the line contains both names. -/
theorem failed_copies_reported (env : Env) (outputFile : String) (args : List String) :
    (main env outputFile args).trace.countP Event.isCopyLog
        = (main env outputFile args).trace.countP Event.failedCopy
      ∧ List.Chain' Follows (main env outputFile args).trace
      ∧ (∀ y ∈ (main env outputFile args).trace.head?, y.isLog = false ∧ y.copyCall = none)
      ∧ (∀ y ∈ (main env outputFile args).trace.getLast?, y.copyCall = none)
      ∧ (∀ e ∈ (main env outputFile args).trace, ∀ name,
          e.reading = some name → name ∈ inputs outputFile args)
      ∧ ∀ name entry err, name.data <:+: (copyingFrom name entry err).data
          ∧ entry.data <:+: (copyingFrom name entry err).data := by
  have hplain : ∀ l : List Event, (∀ e ∈ l, e.inLoop = false) →
      l.countP Event.isCopyLog = l.countP Event.failedCopy
        ∧ List.Chain' Follows l
        ∧ (∀ y ∈ l.head?, y.isLog = false ∧ y.copyCall = none)
        ∧ (∀ y ∈ l.getLast?, y.copyCall = none)
        ∧ (∀ e ∈ l, ∀ name, e.reading = some name → name ∈ inputs outputFile args) := by
    intro l hl
    have hc := chain_plain l [] (fun e he => ⟨(plain_of_not_inLoop e (hl e he)).1,
      (plain_of_not_inLoop e (hl e he)).2.1⟩) List.chain'_nil (by simp)
    rw [List.append_nil] at hc
    refine ⟨?_, hc.1, hc.2, ?_, ?_⟩
    · rw [List.countP_eq_zero.mpr, List.countP_eq_zero.mpr]
      · intro e he; simp [(plain_of_not_inLoop e (hl e he)).2.2.2.2]
      · intro e he; simp [(plain_of_not_inLoop e (hl e he)).2.2.2.1]
    · intro y hy
      exact (plain_of_not_inLoop y (hl y (List.mem_of_getLast?_eq_some hy))).2.1
    · intro e he name hn
      rw [(plain_of_not_inLoop e (hl e he)).2.2.1] at hn
      simp at hn
  refine ⟨?_, ?_, ?_, ?_, ?_, fun name entry err =>
    ⟨(infix_copyingFrom name entry err).1, (infix_copyingFrom name entry err).2.1⟩⟩
  all_goals
    by_cases hprep : prepared env outputFile args = true
    · have hp : ∀ e ∈ prepCalls env outputFile args, e.inLoop = false :=
        fun e he => (prepCalls_quiet env outputFile args e he).1
      have hf : ∀ e ∈ (finish env (destPath outputFile args)).trace, e.inLoop = false :=
        fun e he => (finish_quiet env _ e he).1
      obtain ⟨p1, p2, p3, p4, p5⟩ := hplain _ hp
      obtain ⟨f1, f2, f3, f4, f5⟩ := hplain _ hf
      obtain ⟨post, hpost, -⟩ := finish_head env (destPath outputFile args)
      have hm := chain_mergeLoop env (inputs outputFile args) _ f2 f3 0
      have hall := chain_plain (prepCalls env outputFile args) _
        (fun e he => ⟨(plain_of_not_inLoop e (hp e he)).1,
          (plain_of_not_inLoop e (hp e he)).2.1⟩) hm.1 hm.2
      rw [main_of_prepared env outputFile args hprep]
      simp only [mergeAndFinish, List.append_assoc]
      first
      | exact hall.1
      | exact hall.2
      | (simp only [List.countP_append, p1, f1, count_mergeLoop])
      | (intro y hy
         rw [hpost] at hy f4
         simp only [List.getLast?_append, List.getLast?_cons] at hy f4
         exact f4 y (by simpa using hy))
      | (intro e he name hn
         simp only [List.mem_append] at he
         rcases he with he | he | he
         · exact p5 e he name hn
         · exact reading_mergeLoop env _ 0 e he name hn
         · exact f5 e he name hn)
    · cases args with
      | nil =>
        have := hplain [Event.usage] (by simp [Event.inLoop])
        first
        | exact this.1
        | exact this.2.1
        | exact this.2.2.1
        | exact this.2.2.2.1
        | exact this.2.2.2.2
      | cons a0 rest =>
        have h := main_of_unprepared env outputFile (a0 :: rest) (by simp)
          (by simpa using hprep)
        have := hplain _ (fun e he => (h.2.1 e he).1)
        first
        | exact this.1
        | exact this.2.1
        | exact this.2.2.1
        | exact this.2.2.2.1
        | exact this.2.2.2.2

/-! ## Files, handles and the cursor -/

theorem run_append (w : World) (l₁ l₂ : List Event) :
    run w (l₁ ++ l₂) = run (run w l₁) l₂ := by
  simp [run, List.foldl_append]

theorem run_cons (w : World) (e : Event) (l : List Event) :
    run w (e :: l) = run (step w e) l := rfl

theorem setFile_self (fs : String → List Byte) (p : String) : setFile fs p (fs p) = fs := by
  funext q
  unfold setFile
  split
  · next h => rw [h]
  · rfl

theorem write_nil (w : World) : w.write [] = w := by
  unfold World.write
  cases h : w.dest with
  | none => rfl
  | some p =>
    simp only [writeAt, setFile_self, List.length_nil, Nat.add_zero]
    cases w
    simp_all

theorem write_dest (w : World) (bs : List Byte) : (w.write bs).dest = w.dest := by
  unfold World.write
  cases h : w.dest <;> simp [h]

/-- A call after the destination is positioned writes its bytes at the cursor
of the destination and moves nothing else. -/
theorem step_of_not_positions (w : World) (e : Event) (h : e.positions = false) :
    (step w e).dest = w.dest ∧ (step w e).pos = (w.write e.bytes).pos
      ∧ (step w e).fs = (w.write e.bytes).fs := by
  cases e with
  | copy name file err bs => cases err <;> simp [step, Event.bytes, write_dest]
  | wClose err bs => simp [step, Event.bytes, write_dest]
  | openReader name err => cases err <;> simp [step, Event.bytes, write_nil]
  | fClose path err => simp [step, Event.bytes, write_nil]
  | logPrint err => simp [step, Event.bytes, write_nil]
  | logPrintf name entry err => simp [step, Event.bytes, write_nil]
  | fatal msg => simp [step, Event.bytes, write_nil]
  | usage => simp [step, Event.bytes, write_nil]
  | _ => simp [Event.positions] at h

theorem write_of_dest (w : World) (p : String) (bs : List Byte) (h : w.dest = some p) :
    (w.write bs).pos = w.pos + bs.length
      ∧ (w.write bs).fs = setFile w.fs p (writeAt (w.fs p) w.pos bs) := by
  unfold World.write
  simp [h]

theorem setFile_same (fs : String → List Byte) (p : String) (bytes : List Byte) :
    setFile fs p bytes p = bytes := by
  simp [setFile]

theorem setFile_other (fs : String → List Byte) (p q : String) (bytes : List Byte)
    (h : q ≠ p) : setFile fs p bytes q = fs q := by
  simp [setFile, h]

/-- Writing at the end of what was written so far extends it and eats into
the old tail; nothing is cut off. -/
theorem writeAt_tail (old W bs : List Byte) (off : Nat) (h : off ≤ old.length) :
    writeAt (old.take off ++ W ++ old.drop (off + W.length)) (off + W.length) bs
      = old.take off ++ (W ++ bs) ++ old.drop (off + (W ++ bs).length) := by
  cases bs with
  | nil => simp [writeAt]
  | cons b rest =>
    have hA : (old.take off ++ W).length = off + W.length := by
      simp [List.length_take, h]
    simp only [writeAt]
    rw [List.take_left' hA]
    have hlen : off + W.length
        - (old.take off ++ W ++ old.drop (off + W.length)).length = 0 := by
      simp only [List.length_append, List.length_take, List.length_drop]
      omega
    rw [hlen, List.replicate_zero, List.append_nil]
    have hd : List.drop (off + W.length + (b :: rest).length)
        (old.take off ++ W ++ old.drop (off + W.length))
        = old.drop (off + (W ++ b :: rest).length) := by
      rw [← hA, List.drop_append, List.drop_drop, hA, List.length_append]
      congr 1
      omega
    rw [hd]
    simp [List.append_assoc]

theorem writeAt_keeps_head (A cur bs : List Byte) (pos : Nat) (h : A <+: cur)
    (hp : A.length ≤ pos) : A <+: writeAt cur pos bs := by
  cases bs with
  | nil => simpa [writeAt] using h
  | cons b rest =>
    obtain ⟨t, rfl⟩ := h
    simp only [writeAt]
    rw [List.take_append_eq_append_take, List.take_of_length_le hp]
    simp only [List.append_assoc]
    exact List.prefix_append _ _

theorem written_cons (e : Event) (l : List Event) :
    written (e :: l) = e.bytes ++ written l := by
  simp [written]

theorem run_writes (p : String) (old : List Byte) (off : Nat) (hoff : off ≤ old.length) :
    ∀ l : List Event, (∀ e ∈ l, e.positions = false) →
      ∀ (w : World) (W : List Byte), w.dest = some p → w.pos = off + W.length →
        w.fs p = old.take off ++ W ++ old.drop (off + W.length) →
        (run w l).dest = some p ∧ (run w l).pos = off + (W ++ written l).length
          ∧ (run w l).fs p
              = old.take off ++ (W ++ written l)
                  ++ old.drop (off + (W ++ written l).length) := by
  intro l
  induction l with
  | nil =>
    intro _ w W hd hp hf
    simp only [run, written, List.foldl_nil, List.map_nil, List.flatten_nil, List.append_nil]
    exact ⟨hd, hp, hf⟩
  | cons e t ih =>
    intro hl w W hd hp hf
    obtain ⟨s1, s2, s3⟩ := step_of_not_positions w e (hl e (by simp))
    obtain ⟨w1, w2⟩ := write_of_dest w p e.bytes hd
    rw [run_cons, written_cons]
    have := ih (fun x hx => hl x (by simp [hx])) (step w e) (W ++ e.bytes)
      (by rw [s1, hd]) (by rw [s2, w1, hp, List.length_append]; omega)
      (by rw [s3, w2, setFile_same, hf, hp, writeAt_tail old W e.bytes off hoff])
    simpa [List.append_assoc] using this

theorem run_keeps_head (p : String) (A : List Byte) :
    ∀ l : List Event, (∀ e ∈ l, e.positions = false) →
      ∀ w : World, w.dest = some p → A.length ≤ w.pos → A <+: w.fs p →
        (run w l).dest = some p ∧ A.length ≤ (run w l).pos ∧ A <+: (run w l).fs p := by
  intro l
  induction l with
  | nil => intro _ w hd hp hf; exact ⟨hd, hp, hf⟩
  | cons e t ih =>
    intro hl w hd hp hf
    obtain ⟨s1, s2, s3⟩ := step_of_not_positions w e (hl e (by simp))
    obtain ⟨w1, w2⟩ := write_of_dest w p e.bytes hd
    rw [run_cons]
    exact ih (fun x hx => hl x (by simp [hx])) (step w e) (by rw [s1, hd])
      (by rw [s2, w1]; omega)
      (by rw [s3, w2, setFile_same]; exact writeAt_keeps_head A _ _ _ hf hp)

theorem run_frame (p q : String) (hq : q ≠ p) :
    ∀ l : List Event, (∀ e ∈ l, e.positions = false) →
      ∀ w : World, w.dest = some p → (run w l).dest = some p ∧ (run w l).fs q = w.fs q := by
  intro l
  induction l with
  | nil => intro _ w hd; exact ⟨hd, rfl⟩
  | cons e t ih =>
    intro hl w hd
    obtain ⟨s1, s2, s3⟩ := step_of_not_positions w e (hl e (by simp))
    obtain ⟨w1, w2⟩ := write_of_dest w p e.bytes hd
    rw [run_cons]
    obtain ⟨i1, i2⟩ := ih (fun x hx => hl x (by simp [hx])) (step w e) (by rw [s1, hd])
    exact ⟨i1, by rw [i2, s3, w2, setFile_other _ _ _ _ hq]⟩

theorem not_positions_of_inLoop (e : Event) (h : e.inLoop = true) : e.positions = false := by
  cases e <;> simp_all [Event.inLoop, Event.positions]

theorem finish_not_positions (env : Env) (path : String) :
    ∀ e ∈ (finish env path).trace, e.positions = false := by
  intro e he
  rcases finish_trace env path with h | h | h <;> rw [h.1] at he <;>
    simp only [List.mem_cons, List.mem_singleton, List.not_mem_nil, or_false] at he
  · rcases he with rfl | rfl <;> rfl
  · rcases he with rfl | rfl | rfl <;> rfl
  · rcases he with rfl | rfl <;> rfl

theorem rest_not_positions (env : Env) (path : String) (names : List String) :
    ∀ e ∈ mergeLoop env 0 names ++ (finish env path).trace, e.positions = false := by
  intro e he
  rw [List.mem_append] at he
  rcases he with he | he
  · exact not_positions_of_inLoop e (inLoop_mergeLoop env names 0 e he)
  · exact finish_not_positions env path e he

/-- A run without `-o` whose destination gets ready: the first argument is
opened, measured, parsed and positioned, the writer is attached, and the
second and subsequent arguments are merged. -/
theorem default_prepared (env : Env) (args : List String)
    (hprep : prepared env "" args = true) :
    ∃ a0 rest r, args = a0 :: rest
      ∧ env.newReader (env.files a0).length = .ok r
      ∧ (main env "" args).trace
          = positionCalls a0 (env.files a0).length r.appendOffset
              ++ Event.append r :: (mergeLoop env 0 rest ++ (finish env a0).trace)
      ∧ (main env "" args).exit = (finish env a0).exit := by
  cases args with
  | nil => simp [prepared] at hprep
  | cons a0 rest =>
    have hm := main_of_prepared env "" (a0 :: rest) hprep
    simp only [prepared, ne_eq, not_true_eq_false, if_false, Bool.and_eq_true,
      Option.isNone_iff_eq_none] at hprep
    obtain ⟨⟨h1, h2⟩, h3⟩ := hprep
    cases hr : env.newReader (env.files a0).length with
    | error e => simp [hr] at h3
    | ok r =>
      refine ⟨a0, rest, r, rfl, hr, ?_, ?_⟩
      · rw [hm]
        simp [mergeAndFinish, prepCalls, hr, positionCalls, destPath, inputs]
      · rw [hm]
        simp [mergeAndFinish, destPath]

theorem run_positionCalls (env : Env) (a0 : String) (r : Reader) :
    run (World.init env)
        (positionCalls a0 (env.files a0).length r.appendOffset ++ [Event.append r])
      = ⟨env.files, [a0], some a0, r.appendOffset, r.Files⟩ := rfl

theorem run_positionCalls_take (env : Env) (a0 : String) (size off : Nat) (r : Reader)
    (k : Nat) :
    (run (World.init env) ((positionCalls a0 size off ++ [Event.append r]).take k)).fs
        = env.files
      ∧ (1 ≤ k →
          (run (World.init env) ((positionCalls a0 size off ++ [Event.append r]).take k)).dest
            = some a0) := by
  rcases k with _ | _ | _ | _ | _ | _ | k <;>
    simp [positionCalls, run, step, World.init]

/-- C8. The caller positions the destination before attaching the writer:
without `-o`, when the destination gets ready, the run starts with exactly
the calls open, seek to the end, parse with that size, read the append
offset, seek to it, and then `r.Append(f)` on the reader just parsed; at that
moment `f` is open on the first argument, the file still has its full
original length (the size given to `zip.NewReader`), the cursor of `f` equals
`r.AppendOffset()`, and no later call reads the offset, seeks or attaches. -/
theorem cursor_at_attach (env : Env) (args : List String)
    (hprep : prepared env "" args = true) :
    ∃ r rest,
      env.newReader (env.files (args.headD "")).length = .ok r
      ∧ (main env "" args).trace
          = positionCalls (args.headD "") (env.files (args.headD "")).length r.appendOffset
              ++ Event.append r :: rest
      ∧ (run (World.init env)
            (positionCalls (args.headD "") (env.files (args.headD "")).length
              r.appendOffset)).pos = r.appendOffset
      ∧ (run (World.init env)
            (positionCalls (args.headD "") (env.files (args.headD "")).length
              r.appendOffset)).dest = some (args.headD "")
      ∧ ((run (World.init env)
            (positionCalls (args.headD "") (env.files (args.headD "")).length
              r.appendOffset)).fs (args.headD "")).length = (env.files (args.headD "")).length
      ∧ ∀ e ∈ rest, e.positions = false := by
  obtain ⟨a0, rest, r, rfl, hr, htr, -⟩ := default_prepared env args hprep
  exact ⟨r, _, hr, htr, rfl, rfl, rfl, rest_not_positions env a0 rest⟩

theorem cursor_at_attach_witness :
    prepared okEnv "" ["a.zip", "b.zip"] = true
      ∧ ∃ r rest, okEnv.newReader (okEnv.files "a.zip").length = .ok r
          ∧ (main okEnv "" ["a.zip", "b.zip"]).trace
              = positionCalls "a.zip" 25 r.appendOffset ++ Event.append r :: rest
          ∧ (run (World.init okEnv) (positionCalls "a.zip" 25 r.appendOffset)).pos
              = r.appendOffset :=
  ⟨by decide,
   by
    obtain ⟨r, rest, h1, h2, h3, -⟩ :=
      cursor_at_attach okEnv ["a.zip", "b.zip"] (by decide)
    exact ⟨r, rest, h1, h2, h3⟩⟩

/-! ## The destination file after the run -/

/-- C9, as amended. Without `-o`, `main` never truncates the destination: when
the destination gets ready and the append offset lies within the file, the
file after the run is the old bytes before the append offset, then the bytes
the writer wrote, then the old bytes beyond the written range; so its length
is the larger of the old length and append offset plus bytes written, and it
ends where the writer stopped exactly when the written tail is not shorter
than the old one. -/
theorem append_leaves_old_tail (env : Env) (args : List String) (r : Reader)
    (hprep : prepared env "" args = true)
    (hr : env.newReader (env.files (args.headD "")).length = .ok r)
    (hoff : r.appendOffset ≤ (env.files (args.headD "")).length) :
    (run (World.init env) (main env "" args).trace).fs (args.headD "")
        = (env.files (args.headD "")).take r.appendOffset
            ++ written (main env "" args).trace
            ++ (env.files (args.headD "")).drop
                (r.appendOffset + (written (main env "" args).trace).length)
      ∧ ((run (World.init env) (main env "" args).trace).fs (args.headD "")).length
          = max (env.files (args.headD "")).length
              (r.appendOffset + (written (main env "" args).trace).length)
      ∧ (((run (World.init env) (main env "" args).trace).fs (args.headD "")).length
            = r.appendOffset + (written (main env "" args).trace).length
          ↔ (env.files (args.headD "")).length
              ≤ r.appendOffset + (written (main env "" args).trace).length) := by
  obtain ⟨a0, rest, r', rfl, hr', htr, -⟩ := default_prepared env args hprep
  simp only [List.headD_cons] at hr hoff ⊢
  rw [hr'] at hr
  cases hr
  have hw : written (main env "" (a0 :: rest)).trace
      = written (mergeLoop env 0 rest ++ (finish env a0).trace) := by
    rw [htr]
    simp [written, positionCalls, Event.bytes]
  have hrun : run (World.init env) (main env "" (a0 :: rest)).trace
      = run ⟨env.files, [a0], some a0, r.appendOffset, r.Files⟩
          (mergeLoop env 0 rest ++ (finish env a0).trace) := by
    rw [htr, ← run_positionCalls env a0 r, ← run_append]
    simp
  have key := run_writes a0 (env.files a0) r.appendOffset hoff _
    (rest_not_positions env a0 rest) ⟨env.files, [a0], some a0, r.appendOffset, r.Files⟩ []
    rfl rfl (by simp)
  rw [hrun, hw]
  simp only [List.nil_append] at key
  have hlen : ((run ⟨env.files, [a0], some a0, r.appendOffset, r.Files⟩
      (mergeLoop env 0 rest ++ (finish env a0).trace)).fs a0).length
      = max (env.files a0).length
          (r.appendOffset
            + (written (mergeLoop env 0 rest ++ (finish env a0).trace)).length) := by
    rw [key.2.2]
    simp only [List.length_append, List.length_take, List.length_drop]
    omega
  refine ⟨key.2.2, hlen, ?_⟩
  rw [hlen]
  omega

theorem append_leaves_old_tail_witness :
    prepared okEnv "" ["a.zip", "b.zip"] = true
      ∧ okEnv.newReader (okEnv.files "a.zip").length = .ok ⟨[], 0⟩
      ∧ (0 : Nat) ≤ (okEnv.files "a.zip").length
      ∧ ((run (World.init okEnv) (main okEnv "" ["a.zip", "b.zip"]).trace).fs "a.zip").length
          = max (okEnv.files "a.zip").length
              (0 + (written (main okEnv "" ["a.zip", "b.zip"]).trace).length) :=
  ⟨by decide, rfl, by decide,
   (append_leaves_old_tail okEnv ["a.zip", "b.zip"] ⟨[], 0⟩ (by decide) rfl (by decide)).2.1⟩

/-- C9, as stated, fails: `zipmerge a.zip` on an empty archive with a
three-byte comment; the writer writes the 22-byte end record at offset 0,
the file keeps its 25 bytes, and the old comment survives past the new end
record. -/
theorem append_not_truncated :
    prepared okEnv "" ["a.zip"] = true
      ∧ (main okEnv "" ["a.zip"]).exit = 0
      ∧ written (main okEnv "" ["a.zip"]).trace = emptyEndRecord
      ∧ ((run (World.init okEnv) (main okEnv "" ["a.zip"]).trace).fs "a.zip").length = 25
      ∧ ((run (World.init okEnv) (main okEnv "" ["a.zip"]).trace).fs "a.zip").length
          ≠ 0 + (written (main okEnv "" ["a.zip"]).trace).length
      ∧ (run (World.init okEnv) (main okEnv "" ["a.zip"]).trace).fs "a.zip"
          = emptyEndRecord ++ [97, 98, 99] := by
  decide

/-! ## Open handles -/

theorem handles_step (w : World) (e : Event) (p : String) :
    (step w e).handles.count p ≤ w.handles.count p + if e.opensPath p then 1 else 0 := by
  cases e with
  | create path err =>
    cases err with
    | none =>
      by_cases h : path = p <;> simp [step, Event.opensPath, List.count_cons, h]
    | some e => simp [step]
  | openFile path err =>
    cases err with
    | none =>
      by_cases h : path = p <;> simp [step, Event.opensPath, List.count_cons, h]
    | some e => simp [step]
  | openReader path err =>
    cases err with
    | none =>
      by_cases h : path = p <;> simp [step, Event.opensPath, List.count_cons, h]
    | some e => simp [step]
  | fClose path err =>
    simp only [step, Event.opensPath]
    exact Nat.le_trans (List.Sublist.count_le (List.erase_sublist _ _) _) (Nat.le_add_right _ _)
  | copy name file err bs =>
    cases err <;> simp [step, World.write] <;> split <;> simp
  | wClose err bs => simp [step, World.write]; split <;> simp
  | seekEnd size err => cases err <;> simp [step]
  | seekSet off err => cases err <;> simp [step]
  | _ => simp [step]

theorem handles_run (p : String) :
    ∀ (l : List Event) (w : World),
      (run w l).handles.count p ≤ w.handles.count p + l.countP (Event.opensPath p) := by
  intro l
  induction l with
  | nil => intro w; simp [run]
  | cons e t ih =>
    intro w
    rw [run_cons, List.countP_cons]
    have h1 := ih (step w e)
    have h2 := handles_step w e p
    omega

theorem opens_copyEntries (env : Env) (i : Nat) (name p : String) (files : List File) :
    ∀ j, (copyEntries env i name j files).countP (Event.opensPath p) = 0 := by
  induction files with
  | nil => intro j; rfl
  | cons file rest ih =>
    intro j
    rw [copyEntries, List.countP_append, ih]
    cases h : (env.copy i j file).1 <;> simp [List.countP_cons, Event.opensPath]

theorem opens_mergeLoop (env : Env) (p : String) (names : List String) :
    ∀ i, (mergeLoop env i names).countP (Event.opensPath p) ≤ names.count p := by
  induction names with
  | nil => intro i; simp [mergeLoop]
  | cons name rest ih =>
    intro i
    rw [mergeLoop, List.countP_append, List.count_cons]
    have := ih (i + 1)
    cases h : env.openReader i name with
    | error e =>
      simp only [List.countP_cons, List.countP_nil, Event.opensPath]
      simp
      omega
    | ok files =>
      simp only [List.countP_cons, opens_copyEntries, Event.opensPath]
      by_cases hp : name = p <;> simp [hp] <;> omega

theorem opens_main (env : Env) (outputFile : String) (args : List String) (p : String) :
    (main env outputFile args).trace.countP (Event.opensPath p)
      ≤ (named outputFile args).count p := by
  by_cases hprep : prepared env outputFile args = true
  · have hl := opens_mergeLoop env p (inputs outputFile args) 0
    have hf : (finish env (destPath outputFile args)).trace.countP (Event.opensPath p) = 0 := by
      rw [List.countP_eq_zero]
      intro e he
      rcases finish_trace env (destPath outputFile args) with h | h | h <;> rw [h.1] at he <;>
        simp only [List.mem_cons, List.mem_singleton, List.not_mem_nil, or_false] at he
      · rcases he with rfl | rfl <;> simp [Event.opensPath]
      · rcases he with rfl | rfl | rfl <;> simp [Event.opensPath]
      · rcases he with rfl | rfl <;> simp [Event.opensPath]
    rw [main_of_prepared env outputFile args hprep]
    simp only [mergeAndFinish, List.countP_append, hf, Nat.add_zero]
    by_cases ho : outputFile = ""
    · subst ho
      obtain ⟨a0, rest, r, rfl, hr, -, -⟩ := default_prepared env args hprep
      simp only [inputs, ne_eq, not_true_eq_false, if_false, List.tail_cons] at hl
      simp only [prepCalls, named, inputs, ne_eq, not_true_eq_false, if_false, List.headD_cons,
        hr, List.tail_cons, List.countP_cons, List.countP_nil, Event.opensPath, List.count_cons]
      by_cases hp : a0 = p <;> simp [hp] <;> omega
    · simp only [inputs, ne_eq, ho, not_false_eq_true, if_true] at hl
      simp only [prepCalls, named, inputs, ne_eq, ho, not_false_eq_true, if_true,
        List.countP_cons, List.countP_nil, Event.opensPath, List.count_cons]
      by_cases hp : outputFile = p <;> simp [hp] <;> omega
  · cases args with
    | nil => simp [main, Event.opensPath]
    | cons a0 rest =>
      by_cases ho : outputFile = ""
      · subst ho
        simp only [named, ne_eq, not_true_eq_false, if_false, List.count_cons]
        cases h1 : env.openFile a0 with
        | some e => simp [main, h1, List.countP_cons, Event.opensPath]
        | none =>
          cases h2 : env.seekEnd with
          | some e =>
            simp only [main, ne_eq, not_true_eq_false, if_false, h1, h2]
            by_cases hp : a0 = p <;> simp [List.countP_cons, Event.opensPath, hp]
          | none =>
            cases hr : env.newReader (env.files a0).length with
            | error e =>
              simp only [main, ne_eq, not_true_eq_false, if_false, h1, h2, hr]
              by_cases hp : a0 = p <;> simp [List.countP_cons, Event.opensPath, hp]
            | ok r =>
              cases h3 : env.seekSet r.appendOffset with
              | some e =>
                simp only [main, ne_eq, not_true_eq_false, if_false, h1, h2, hr, h3]
                by_cases hp : a0 = p <;> simp [List.countP_cons, Event.opensPath, hp]
              | none => simp [prepared, h1, h2, hr, h3] at hprep
      · cases h1 : env.create outputFile with
        | some e => simp [main, ho, h1, List.countP_cons, Event.opensPath]
        | none => simp [prepared, ho, h1] at hprep

/-- C10, as amended. At every point of every run, the number of handles the
process holds open on a path is at most the number of times the path is named
on the command line (as the `-o` file or as a positional argument); so a path
named once has at most one open handle. -/
theorem handles_at_most_named (env : Env) (outputFile : String) (args : List String)
    (k : Nat) (p : String) :
    (run (World.init env) ((main env outputFile args).trace.take k)).handles.count p
      ≤ (named outputFile args).count p := by
  have h1 := handles_run p ((main env outputFile args).trace.take k) (World.init env)
  have h2 : ((main env outputFile args).trace.take k).countP (Event.opensPath p)
      ≤ (main env outputFile args).trace.countP (Event.opensPath p) :=
    List.Sublist.countP_le _ (List.take_sublist _ _)
  have h3 := opens_main env outputFile args p
  have h4 : (World.init env).handles.count p = 0 := by simp [World.init]
  omega

/-- C10, as stated, fails: `zipmerge a.zip a.zip`; the destination handle `f`
stays open on `a.zip` for the whole merge, and `zip.OpenReader("a.zip")`
opens a second handle on the same path (seven calls into the run), which
`main` never closes. -/
theorem two_handles_on_one_path :
    "a.zip" ∈ named "" ["a.zip", "a.zip"]
      ∧ (main okEnv "" ["a.zip", "a.zip"]).trace.take 7
          = positionCalls "a.zip" 25 0
              ++ [Event.append ⟨[], 0⟩, Event.openReader "a.zip" none]
      ∧ (run (World.init okEnv)
          ((main okEnv "" ["a.zip", "a.zip"]).trace.take 7)).handles.count "a.zip" = 2 := by
  decide

/-! ## Appending in place -/

/-- The calls of a run whose destination gets ready, without `-o`. -/
theorem partial_calls (env : Env) (args : List String)
    (hprep : prepared env "" args = true) :
    openCalls (main env "" args).trace = args.tail
      ∧ copyCalls (main env "" args).trace = concatFrom (entries env) 0 args.tail := by
  have hp := projections_prepCalls env "" args
  have hf := projections_finish env (destPath "" args)
  rw [main_of_prepared env "" args hprep]
  simp [mergeAndFinish, copyCalls_append, openCalls_append, hp.1, hp.2.2.1, hf.1, hf.2.2.1,
    copyCalls_mergeLoop, openCalls_mergeLoop, inputs]

theorem run_dest (l : List Event) (hl : ∀ e ∈ l, e.positions = false) :
    ∀ w : World, (run w l).dest = w.dest := by
  induction l with
  | nil => intro w; rfl
  | cons e t ih =>
    intro w
    rw [run_cons, ih (fun x hx => hl x (by simp [hx])),
      (step_of_not_positions w e (hl e (by simp))).1]

theorem step_dir (w : World) (e : Event) (h : e.positions = false) :
    (step w e).dir = w.dir ++ e.copiedFile.toList := by
  cases e with
  | copy name file err bs =>
    cases err <;> simp [step, Event.copiedFile, World.write]
    split <;> simp
  | wClose err bs => simp [step, Event.copiedFile, World.write]; split <;> simp
  | openReader name err => cases err <;> simp [step, Event.copiedFile]
  | fClose path err => simp [step, Event.copiedFile]
  | logPrint err => simp [step, Event.copiedFile]
  | logPrintf name entry err => simp [step, Event.copiedFile]
  | fatal msg => simp [step, Event.copiedFile]
  | usage => simp [step, Event.copiedFile]
  | _ => simp [Event.positions] at h

theorem run_dir (l : List Event) (hl : ∀ e ∈ l, e.positions = false) :
    ∀ w : World, (run w l).dir = w.dir ++ copied l := by
  induction l with
  | nil => intro w; simp [run, copied]
  | cons e t ih =>
    intro w
    rw [run_cons, ih (fun x hx => hl x (by simp [hx])), step_dir w e (hl e (by simp))]
    cases h : e.copiedFile <;> simp [copied, List.filterMap_cons, h]

theorem attach_of_not_positions (e : Event) (h : e.positions = false) : e.attach = none := by
  cases e <;> simp_all [Event.positions, Event.attach]

/-- C2, as amended. Without `-o`, when the destination gets ready: the only
writer is the one `r.Append` attaches, `r` being the reader parsed from the
first argument's own file, on which `f` stays open from the first call on;
`zip.OpenReader` is called on exactly the second and subsequent arguments, so
the first archive is opened as a copy source only if its path is named again
among them; the entries handed to `w.Copy` are those of the second and
subsequent archives that open, in order; the directory of the writer ends as
the entries of the first archive followed by the entries copied; and at every
point of the run the bytes of the first archive before its append offset are
still in place. -/
theorem default_appends_in_place (env : Env) (args : List String)
    (hprep : prepared env "" args = true) :
    ∃ r, env.newReader (env.files (args.headD "")).length = .ok r
      ∧ (main env "" args).trace.filterMap Event.attach = [some r]
      ∧ (∀ k, 1 ≤ k →
          (run (World.init env) ((main env "" args).trace.take k)).dest
            = some (args.headD ""))
      ∧ openCalls (main env "" args).trace = args.tail
      ∧ (args.headD "" ∉ args.tail → args.headD "" ∉ openCalls (main env "" args).trace)
      ∧ copyCalls (main env "" args).trace = concatFrom (entries env) 0 args.tail
      ∧ (run (World.init env) (main env "" args).trace).dir
          = r.Files ++ copied (main env "" args).trace
      ∧ ∀ k, (env.files (args.headD "")).take r.appendOffset
          <+: (run (World.init env) ((main env "" args).trace.take k)).fs (args.headD "") := by
  obtain ⟨a0, rest, r, rfl, hr, htr, -⟩ := default_prepared env args hprep
  have hpf := partial_calls env (a0 :: rest) hprep
  have hrest := rest_not_positions env a0 rest
  have htr2 : (main env "" (a0 :: rest)).trace
      = (positionCalls a0 (env.files a0).length r.appendOffset ++ [Event.append r])
          ++ (mergeLoop env 0 rest ++ (finish env a0).trace) := by
    rw [htr]; simp
  have hlen : (positionCalls a0 (env.files a0).length r.appendOffset
      ++ [Event.append r]).length = 6 := rfl
  have htake : ∀ k, (main env "" (a0 :: rest)).trace.take k
      = (positionCalls a0 (env.files a0).length r.appendOffset ++ [Event.append r]).take k
          ++ (mergeLoop env 0 rest ++ (finish env a0).trace).take (k - 6) := by
    intro k
    rw [htr2, List.take_append_eq_append_take, hlen]
  have hsub : ∀ k, ∀ e ∈ (mergeLoop env 0 rest ++ (finish env a0).trace).take (k - 6),
      e.positions = false := fun k e he => hrest e (List.mem_of_mem_take he)
  simp only [List.headD_cons, List.tail_cons] at hpf ⊢
  refine ⟨r, hr, ?_, ?_, hpf.1, ?_, hpf.2, ?_, ?_⟩
  · rw [htr2, List.filterMap_append,
      filterMap_none _ _ (fun e he => attach_of_not_positions e (hrest e he))]
    simp [positionCalls, Event.attach]
  · intro k hk
    rw [htake, run_append, run_dest _ (hsub k)]
    exact (run_positionCalls_take env a0 _ _ r k).2 hk
  · intro h
    rw [hpf.1]
    exact h
  · rw [htr2, run_append, run_positionCalls, run_dir _ hrest]
    simp [copied, positionCalls, Event.copiedFile]
  · intro k
    rw [htake, run_append]
    by_cases hk : k < 6
    · have : k - 6 = 0 := by omega
      rw [this, List.take_zero]
      show _ <+: (run (World.init env) _).fs a0
      rw [(run_positionCalls_take env a0 _ _ r k).1]
      exact List.take_prefix _ _
    · have e6 : (positionCalls a0 (env.files a0).length r.appendOffset
          ++ [Event.append r]).take k
          = positionCalls a0 (env.files a0).length r.appendOffset ++ [Event.append r] :=
        List.take_of_length_le (by rw [hlen]; omega)
      rw [e6, run_positionCalls]
      exact (run_keeps_head a0 ((env.files a0).take r.appendOffset) _ (hsub k)
        ⟨env.files, [a0], some a0, r.appendOffset, r.Files⟩ rfl (List.length_take_le _ _)
        (List.take_prefix _ _)).2.2

theorem default_appends_in_place_witness :
    prepared flakyEnv "" ["a.zip", "b.zip", "c.zip"] = true
      ∧ ∃ r, flakyEnv.newReader (flakyEnv.files "a.zip").length = .ok r
          ∧ openCalls (main flakyEnv "" ["a.zip", "b.zip", "c.zip"]).trace = ["b.zip", "c.zip"]
          ∧ (run (World.init flakyEnv) (main flakyEnv "" ["a.zip", "b.zip", "c.zip"]).trace).dir
              = r.Files ++ copied (main flakyEnv "" ["a.zip", "b.zip", "c.zip"]).trace :=
  ⟨by decide,
   by
    obtain ⟨r, h1, -, -, h4, -, -, h7, -⟩ :=
      default_appends_in_place flakyEnv ["a.zip", "b.zip", "c.zip"] (by decide)
    exact ⟨r, h1, h4, h7⟩⟩

/-- C2, as stated, fails: `zipmerge a.zip a.zip`; the first archive is the
destination and is also opened by `zip.OpenReader` as a copy source. -/
theorem first_archive_opened_as_source :
    prepared okEnv "" ["a.zip", "a.zip"] = true
      ∧ (main okEnv "" ["a.zip", "a.zip"]).trace.take 1 = [Event.openFile "a.zip" none]
      ∧ Event.openReader "a.zip" none ∈ (main okEnv "" ["a.zip", "a.zip"]).trace
      ∧ openCalls (main okEnv "" ["a.zip", "a.zip"]).trace = ["a.zip"] := by
  decide

/-- C3, evaluated at `zipmerge -o a.zip a.zip b.zip`: the first call,
`os.Create("a.zip")`, empties the source `a.zip`; the run ends with status 0
and `a.zip` holds only what the writer wrote. -/
theorem output_file_clobbers_source :
    "a.zip" ∈ inputs "a.zip" ["a.zip", "b.zip"]
      ∧ (main clobberEnv "a.zip" ["a.zip", "b.zip"]).trace.take 1
          = [Event.create "a.zip" none]
      ∧ (run (World.init clobberEnv)
          ((main clobberEnv "a.zip" ["a.zip", "b.zip"]).trace.take 1)).fs "a.zip" = []
      ∧ (main clobberEnv "a.zip" ["a.zip", "b.zip"]).exit = 0
      ∧ (run (World.init clobberEnv)
          (main clobberEnv "a.zip" ["a.zip", "b.zip"]).trace).fs "a.zip"
          ≠ clobberEnv.files "a.zip"
      ∧ (run (World.init clobberEnv)
          (main clobberEnv "a.zip" ["a.zip", "b.zip"]).trace).fs "a.zip"
          = written (main clobberEnv "a.zip" ["a.zip", "b.zip"]).trace := by
  decide

/-! ## Files other than the destination -/

theorem step_frame (w : World) (e : Event) (q : String) (hd : w.dest ≠ some q)
    (hc : ∀ p, e = Event.create p none → p ≠ q)
    (ho : ∀ p, e = Event.openFile p none → p ≠ q) :
    (step w e).fs q = w.fs q ∧ (step w e).dest ≠ some q := by
  have hw : ∀ bs, (w.write bs).fs q = w.fs q ∧ (w.write bs).dest ≠ some q := by
    intro bs
    unfold World.write
    cases h : w.dest with
    | none => simp [h]
    | some p =>
      have hp : q ≠ p := fun hqp => hd (by rw [h, hqp])
      simp only [setFile_other _ _ _ _ hp, true_and]
      rw [← h]
      exact hd
  cases e with
  | create path err =>
    cases err with
    | none =>
      have hp : q ≠ path := fun h => hc path rfl h.symm
      simp only [step, setFile_other _ _ _ _ hp, true_and]
      exact fun h => hp (Option.some.inj h).symm
    | some e => exact ⟨rfl, hd⟩
  | openFile path err =>
    cases err with
    | none =>
      have hp : q ≠ path := fun h => ho path rfl h.symm
      simp only [step, true_and]
      exact fun h => hp (Option.some.inj h).symm
    | some e => exact ⟨rfl, hd⟩
  | copy name file err bs => cases err <;> exact hw bs
  | wClose err bs => exact hw bs
  | seekEnd size err => cases err <;> exact ⟨rfl, hd⟩
  | seekSet off err => cases err <;> exact ⟨rfl, hd⟩
  | openReader name err => cases err <;> exact ⟨rfl, hd⟩
  | _ => exact ⟨rfl, hd⟩

theorem run_frame_of_no_open (q : String) :
    ∀ (l : List Event) (w : World), w.dest ≠ some q →
      (∀ e ∈ l, (∀ p, e = Event.create p none → p ≠ q)
        ∧ ∀ p, e = Event.openFile p none → p ≠ q) →
      (run w l).fs q = w.fs q := by
  intro l
  induction l with
  | nil => intro w _ _; rfl
  | cons e t ih =>
    intro w hd hl
    obtain ⟨s1, s2⟩ := step_frame w e q hd (hl e (by simp)).1 (hl e (by simp)).2
    rw [run_cons, ih (step w e) s2 (fun x hx => hl x (by simp [hx])), s1]

theorem opens_of_output_mode (env : Env) (outputFile : String) (args : List String)
    (ho : outputFile ≠ "") :
    ∀ e ∈ (main env outputFile args).trace,
      (∀ p, e = Event.create p none → p = outputFile)
        ∧ ∀ p, e ≠ Event.openFile p none := by
  have hloop : ∀ e : Event, e.positions = false →
      (∀ p, e = Event.create p none → p = outputFile) ∧ ∀ p, e ≠ Event.openFile p none := by
    intro e he
    refine ⟨?_, ?_⟩ <;> rintro p rfl <;> simp [Event.positions] at he
  intro e he
  by_cases hprep : prepared env outputFile args = true
  · rw [main_of_prepared env outputFile args hprep] at he
    simp only [mergeAndFinish, List.append_assoc, List.mem_append] at he
    rcases he with he | he | he
    · simp only [prepCalls, ne_eq, ho, not_false_eq_true, if_true, List.mem_cons,
        List.mem_singleton, List.not_mem_nil, or_false] at he
      rcases he with rfl | rfl
      · exact ⟨fun p h => (by cases h; rfl), fun p h => (by cases h)⟩
      · exact ⟨fun p h => (by cases h), fun p h => (by cases h)⟩
    · exact hloop e (not_positions_of_inLoop e (inLoop_mergeLoop env _ 0 e he))
    · exact hloop e (finish_not_positions env _ e he)
  · cases args with
    | nil =>
      simp only [main, List.mem_singleton] at he
      subst he
      exact ⟨fun p h => (by cases h), fun p h => (by cases h)⟩
    | cons a0 rest =>
      cases h1 : env.create outputFile with
      | some err =>
        simp only [main, ne_eq, ho, not_false_eq_true, if_true, h1, List.mem_cons,
          List.mem_singleton, List.not_mem_nil, or_false] at he
        rcases he with rfl | rfl
        · exact ⟨fun p h => (by cases h), fun p h => (by cases h)⟩
        · exact ⟨fun p h => (by cases h), fun p h => (by cases h)⟩
      | none => simp [prepared, ho, h1] at hprep

/-- With `-o`, at every point of the run every file other than the `-o` file
holds the bytes it held before the run. -/
theorem output_mode_frame (env : Env) (outputFile : String) (args : List String)
    (q : String) (k : Nat) (ho : outputFile ≠ "") (hq : q ≠ outputFile) :
    (run (World.init env) ((main env outputFile args).trace.take k)).fs q = env.files q := by
  have h := opens_of_output_mode env outputFile args ho
  exact run_frame_of_no_open q _ (World.init env) (by simp [World.init])
    (fun e he => ⟨fun p hp hpq => hq (by rw [← hpq, (h e (List.mem_of_mem_take he)).1 p hp]),
      fun p hp => absurd hp ((h e (List.mem_of_mem_take he)).2 p)⟩)

theorem output_mode_frame_witness :
    ("out.zip" : String) ≠ "" ∧ ("b.zip" : String) ≠ "out.zip"
      ∧ (run (World.init okEnv)
          ((main okEnv "out.zip" ["b.zip", "c.zip"]).trace.take 9)).fs "b.zip"
          = okEnv.files "b.zip" :=
  ⟨by decide, by decide,
   output_mode_frame okEnv "out.zip" ["b.zip", "c.zip"] "b.zip" 9 (by decide) (by decide)⟩

end Zipmerge
